import Mathlib

/-
Verification of the intake-form review-summary renderer
(force-app/main/default/lwc/intakeFormReviewSummary/intakeFormReviewSummary.js).

The component's core is a pure transformation from two JSON documents (a
data document and a label/configuration document) to an ordered tree of
sections, blocks and fields.  We embed that transformation shallowly:

* JSON values are the inductive `JValue`.  JSON numbers are modeled as
  integers (`Int`); every numeric literal exercised by the verified claims
  is integral, and floating-point rounding behavior is outside the model.
* JavaScript truthiness, property access, `Object.keys` iteration,
  `String(...)` coercion and `parseFloat` are modeled by explicit
  functions (`truthy`, `jsGetProp`, `jsEntries`, `jsToString`,
  `jsParseFloat`).  Label objects are modeled as ordered association
  lists; JSON objects produced by `JSON.parse` have unique keys, and
  `Object.keys` iteration order for the (non-integer-like) keys used by
  label documents is the document order.
* Statements that can fault at run time (reading a property of `null`,
  which throws a TypeError that the component's `initializeData` catches)
  are modeled in an `Except String` monad.
-/

namespace ReviewSummary

/-- A JSON value, as produced by `JSON.parse`.  Numbers are modeled as
integers (see the header comment). -/
inductive JValue : Type where
  | jnull : JValue
  | jbool : Bool → JValue
  | jnum  : Int → JValue
  | jstr  : String → JValue
  | jarr  : List JValue → JValue
  | jobj  : List (String × JValue) → JValue
deriving Repr

open JValue

/-- JavaScript truthiness of a value (`if (v)`).  Objects and arrays are
always truthy; `null`, `false`, `0` and `""` are falsy. -/
def truthy : JValue → Bool
  | jnull => false
  | jbool b => b
  | jnum n => n != 0
  | jstr s => s != ""
  | jarr _ => true
  | jobj _ => true

/-- Truthiness of a possibly-`undefined` value (`none` = `undefined`). -/
def truthyO : Option JValue → Bool
  | none => false
  | some v => truthy v

/-- Numeric value of a list of decimal digit characters. -/
def digitsToNat : List Char → Nat
  | [] => 0
  | c :: r => digitsToNat r + c.toNat.sub 48 * 10 ^ r.length

/-- ASCII lowercase of a string (models `toLowerCase()`; the documents
verified here are ASCII, where JS and `Char.toLower` agree). -/
def toLowerStr (s : String) : String :=
  String.mk (s.toList.map Char.toLower)

/-- Whitespace trim of a string (models `trim()`). -/
def trimAscii (s : String) : String :=
  String.mk (((s.toList.dropWhile Char.isWhitespace).reverse.dropWhile Char.isWhitespace).reverse)

/-- `key.startsWith('_')`. -/
def startsWithUnderscore (s : String) : Bool :=
  match s.toList with
  | c :: _ => c = '_'
  | [] => false

/-- Decimal reading of a character list (all digits, non-empty). -/
def charsToNat? (cs : List Char) : Option Nat :=
  if cs.isEmpty then none
  else if cs.all Char.isDigit then some (digitsToNat cs) else none

/-- Does the string denote a canonical array index (`"0"`, `"17"`, ...)?
JavaScript array element access via a property key only hits an element
for the canonical decimal spelling of the index. -/
def indexOfString (s : String) : Option Nat :=
  match charsToNat? s.toList with
  | some i => if toString i = s then some i else none
  | none => none

/-- Property read `v[k]` on a non-null value: `none` models `undefined`.
Objects look the key up, arrays and strings expose their elements under
canonical index keys, primitives have no own properties.  (Built-in
properties such as `length` are not modeled; the component never reads
them through a dynamic key.) -/
def jsGetProp : JValue → String → Option JValue
  | jobj fs, k => fs.lookup k
  | jarr xs, k => (indexOfString k).bind (fun i => xs[i]?)
  | jstr s, k => (indexOfString k).bind (fun i => (s.toList[i]?).map (fun c => jstr c.toString))
  | _, _ => none

/-- Property read `v[k]` as a JS statement: reading a property of `null`
throws a TypeError (caught only by `initializeData`'s catch-all). -/
def jsPropEx (v : JValue) (k : String) : Except String (Option JValue) :=
  match v with
  | jnull => .error "Cannot read properties of null"
  | v => .ok (jsGetProp v k)

/-- Key/value pairs of an array under `Object.keys` iteration: the
elements keyed by their canonical indices, starting at `i`. -/
def arrEntries (i : Nat) : List JValue → List (String × JValue)
  | [] => []
  | v :: r => (toString i, v) :: arrEntries (i + 1) r

/-- Key/value pairs of a string under `Object.keys` iteration: the
characters keyed by their indices (a JS string has index own-properties). -/
def strEntries (i : Nat) : List Char → List (String × JValue)
  | [] => []
  | c :: r => (toString i, jstr c.toString) :: strEntries (i + 1) r

/-- `Object.keys(v)` paired with the corresponding property values, in
iteration order.  For the label documents this is the JSON document
order of the keys. -/
def jsEntries : JValue → List (String × JValue)
  | jobj fs => fs
  | jarr xs => arrEntries 0 xs
  | jstr s => strEntries 0 s.toList
  | _ => []

mutual
/-- `String(v)`: JS string coercion.  Arrays join their elements with
commas (`null` elements become empty), objects print `[object Object]`. -/
def jsToString : JValue → String
  | jnull => "null"
  | jbool true => "true"
  | jbool false => "false"
  | jnum n => toString n
  | jstr s => s
  | jarr xs => jsToStringList xs
  | jobj _ => "[object Object]"

/-- Comma-joined rendering of an array's elements (`Array.prototype.toString`). -/
def jsToStringList : List JValue → String
  | [] => ""
  | [v] => (match v with | jnull => "" | v => jsToString v)
  | v :: r => (match v with | jnull => "" | v => jsToString v) ++ "," ++ jsToStringList r
end

/-- `s.includes(pat)`: substring test. -/
def strContains (s pat : String) : Bool :=
  decide (pat.toList <:+: s.toList)

/-- Test for the literal pattern `/^\d{4}-\d{2}-\d{2}$/`. -/
def isIsoDate (s : String) : Bool :=
  match s.toList with
  | [a, b, c, d, h1, e, f, h2, g, h] =>
      a.isDigit && b.isDigit && c.isDigit && d.isDigit && h1 = '-' &&
      e.isDigit && f.isDigit && h2 = '-' && g.isDigit && h.isDigit
  | _ => false

/-- Insert a comma after every third character (input and output are
reversed digit lists): the grouping step of `toLocaleString('en-US')`. -/
def group3 : List Char → List Char
  | a :: b :: c :: d :: rest => a :: b :: c :: ',' :: group3 (d :: rest)
  | l => l

/-- Thousands-separated decimal rendering of a natural number. -/
def groupNat (n : Nat) : String :=
  String.mk (group3 (toString n).toList.reverse).reverse

/-- `n.toLocaleString('en-US')` for an integer. -/
def jsLocaleInt (n : Int) : String :=
  (if n < 0 then "-" else "") ++ groupNat n.natAbs

/-- `parseFloat(String(v))`, restricted to the integer model: leading
whitespace, an optional sign and a maximal run of leading digits; `none`
models `NaN`.  A fractional tail is ignored (truncation toward zero);
fractional values are outside the integer number model. -/
def jsParseFloat (v : JValue) : Option Int :=
  let cs := (jsToString v).toList.dropWhile Char.isWhitespace
  let core : List Char → Option Int := fun l =>
    let ds := l.takeWhile Char.isDigit
    if ds.isEmpty then none else some (digitsToNat ds)
  match cs with
  | '-' :: rest => (core rest).map (fun n => -n)
  | '+' :: rest => core rest
  | rest => core rest

/-! ### Calendar arithmetic for `formatDate`

The source builds a JS `Date` from the literal `YYYY-MM-DD` components and
renders it with `toLocaleDateString('en-US', {year:'numeric', month:'long',
day:'numeric'})`.  ECMAScript `Date(year, month, day)` maps constructor
years 0–99 to 1900–1999 and normalizes out-of-range months/days over the
proleptic Gregorian calendar; we model that with standard civil-from-days
conversions. -/

/-- Day count since 1970-01-01 of a civil date (proleptic Gregorian). -/
def daysFromCivil (y m d : Int) : Int :=
  let y := if m ≤ 2 then y - 1 else y
  let era := Int.fdiv y 400
  let yoe := y - era * 400
  let mp := Int.emod (m + 9) 12
  let doy := Int.fdiv (153 * mp + 2) 5 + d - 1
  let doe := yoe * 365 + Int.fdiv yoe 4 - Int.fdiv yoe 100 + doy
  era * 146097 + doe - 719468

/-- Civil date (year, month, day) of a day count since 1970-01-01. -/
def civilFromDays (z : Int) : Int × Int × Int :=
  let z := z + 719468
  let era := Int.fdiv z 146097
  let doe := z - era * 146097
  let yoe := Int.fdiv (doe - Int.fdiv doe 1460 + Int.fdiv doe 36524 - Int.fdiv doe 146096) 365
  let y := yoe + era * 400
  let doy := doe - (365 * yoe + Int.fdiv yoe 4 - Int.fdiv yoe 100)
  let mp := Int.fdiv (5 * doy + 2) 153
  let d := doy - Int.fdiv (153 * mp + 2) 5 + 1
  let m := mp + (if mp < 10 then 3 else -9)
  (if m ≤ 2 then y + 1 else y, m, d)

/-- Full English month name, as rendered by the `en-US` long month format. -/
def monthName : Int → String
  | 1 => "January" | 2 => "February" | 3 => "March" | 4 => "April"
  | 5 => "May" | 6 => "June" | 7 => "July" | 8 => "August"
  | 9 => "September" | 10 => "October" | 11 => "November" | 12 => "December"
  | _ => ""

/-- Rendering of `new Date(y, m - 1, d).toLocaleDateString('en-US', ...)`
for literal ISO components `y/m/d` (each read from fixed-width digits). -/
def formatIsoDate (y m d : Nat) : String :=
  let yy : Int := if y ≤ 99 then (y : Int) + 1900 else (y : Int)
  let m0 : Int := (m : Int) - 1
  let yAdj := yy + Int.fdiv m0 12
  let mAdj := Int.emod m0 12 + 1
  let z := daysFromCivil yAdj mAdj 1 + ((d : Int) - 1)
  let c := civilFromDays z
  monthName c.2.1 ++ " " ++ toString c.2.2 ++ ", " ++ toString c.1

/-- Mirrors `formatDate(value)` (source lines 581–615).  A falsy value
yields the placeholder.  A string matching `YYYY-MM-DD` is built from its
literal components (avoiding timezone shift) and rendered long-form.
Generic parsing of other strings by `new Date(value)` is
implementation-defined per ECMA-262 and is modeled as unparseable, so the
original string is returned; non-string, non-`Date` values return
`String(value)`. -/
def formatDate (value : JValue) : String :=
  if truthy value = false then "—"
  else match value with
    | jstr s =>
        (match s.toList with
         | [a, b, c, d, _h1, e, f, _h2, g, h] =>
             if isIsoDate s then
               formatIsoDate (digitsToNat [a, b, c, d]) (digitsToNat [e, f]) (digitsToNat [g, h])
             else s
         | _ => s)
    | v => jsToString v

/-- JS strict equality `v === "lit"` of a value against a string literal. -/
def strictEqStr (v : JValue) (t : String) : Bool :=
  match v with
  | jstr s => s = t
  | _ => false

/-- Is the value `null` or the empty string (the `value === null ||
value === undefined || value === ''` placeholder test; `undefined` never
reaches `formatValue` because fields are only built from defined values)? -/
def isNullOrEmptyStr (v : JValue) : Bool :=
  match v with
  | jnull => true
  | jstr s => s = ""
  | _ => false

/-- Is the value a native boolean (`typeof value === 'boolean'`)? -/
def isBoolVal (v : JValue) : Bool :=
  match v with
  | jbool _ => true
  | _ => false

/-- Mirrors `detectFieldType(key, value)` (source lines 463–487): the
first matching rule decides the inferred display type. -/
def detectFieldType (key : String) (value : JValue) : String :=
  let keyLower := toLowerStr key
  if isBoolVal value then "boolean"
  else if strContains keyLower "email" then "email"
  else if strContains keyLower "phone" || strContains keyLower "tel" then "phone"
  else if strContains keyLower "amount" || strContains keyLower "budget" ||
          strContains keyLower "cost" || strContains keyLower "price" then "currency"
  else if strContains keyLower "date" ||
          (match value with | jstr s => isIsoDate s | _ => false) then "date"
  else "text"

/-- Mirrors `formatPhoneNumber(value)` (source lines 556–576).  A falsy
value yields the placeholder; otherwise all non-digits are stripped and
the digit count selects the format. -/
def formatPhoneNumber (value : JValue) : String :=
  if truthy value = false then "—"
  else
    let s := jsToString value
    let cleaned := s.toList.filter Char.isDigit
    let n := cleaned.length
    if n = 10 then
      "(" ++ String.mk (cleaned.take 3) ++ ") " ++ String.mk ((cleaned.drop 3).take 3) ++
        "-" ++ String.mk (cleaned.drop 6)
    else if n = 11 && cleaned.take 1 = ['1'] then
      "+1 (" ++ String.mk ((cleaned.drop 1).take 3) ++ ") " ++
        String.mk ((cleaned.drop 4).take 3) ++ "-" ++ String.mk (cleaned.drop 7)
    else if n > 10 then
      "+" ++ String.mk (cleaned.take (n - 10)) ++ " " ++
        String.mk ((cleaned.drop (n - 10)).take 3) ++ " " ++
        String.mk ((cleaned.drop (n - 7)).take 3) ++ " " ++
        String.mk (cleaned.drop (n - 4))
    else s

/-- US-locale currency rendering of an integer amount
(`Intl.NumberFormat('en-US', {style:'currency', currency:'USD'})`). -/
def currencyStr (n : Int) : String :=
  (if n < 0 then "-" else "") ++ "$" ++ groupNat n.natAbs ++ ".00"

/-- Mirrors `formatValue(value, fieldType)` (source lines 492–551).  The
resolved field type is carried as a `JValue` because a label object's
`type` property need not be a string; the dispatch compares it against
the string literals with JS strict equality. -/
def formatValue (value : JValue) (fieldType : JValue) : String :=
  if isNullOrEmptyStr value then "—"
  else if isBoolVal value || strictEqStr fieldType "boolean" then
    match value with
    | jbool true => "Yes"
    | jbool false => "No"
    | v =>
        let strVal := toLowerStr (jsToString v)
        if strVal = "true" ∨ strVal = "yes" then "Yes"
        else if strVal = "false" ∨ strVal = "no" then "No"
        else jsToString v
  else if strictEqStr fieldType "currency" then
    match (match value with | jnum n => some n | v => jsParseFloat v) with
    | some n => currencyStr n
    | none => jsToString value
  else if strictEqStr fieldType "phone" then formatPhoneNumber value
  else if strictEqStr fieldType "email" then toLowerStr (trimAscii (jsToString value))
  else if strictEqStr fieldType "date" then formatDate value
  else if strictEqStr fieldType "number" then
    match (match value with | jnum n => some n | v => jsParseFloat v) with
    | some n => jsLocaleInt n
    | none => jsToString value
  else
    match value with
    | jnum n => jsLocaleInt n
    | v => jsToString v

/-! ### Title formatting -/

/-- Case-insensitive suffix test over strings. -/
def endsWithCI (s suf : String) : Bool :=
  decide ((toLowerStr suf).toList <:+ (toLowerStr s).toList)

/-- Removal of a trailing `[_-]Word` suffix (case-insensitive), for the
`replace(/[_-](…)$/i, '')` steps.  The candidate words are pairwise
non-suffixes of each other, so at most one can match. -/
def stripTitleSuffix (words : List String) (s : String) : String :=
  match words.find? (fun w => endsWithCI s ("_" ++ w) || endsWithCI s ("-" ++ w)) with
  | some w => String.mk (s.toList.take (s.length - (w.length + 1)))
  | none => s

/-- `replace(/[_-]/g, ' ')`. -/
def dashesToSpaces (s : String) : String :=
  String.mk (s.toList.map (fun c => if c = '_' ∨ c = '-' then ' ' else c))

/-- `replace(/([a-z])([A-Z])/g, '$1 $2')`: insert a space between an
ASCII lowercase letter directly followed by an ASCII uppercase letter.
(The global regex never rescans a consumed uppercase character, but an
uppercase character can never start a match, so the pairwise walk agrees
with the regex.) -/
def camelSpace : List Char → List Char
  | a :: b :: r =>
      if ('a' ≤ a ∧ a ≤ 'z') ∧ ('A' ≤ b ∧ b ≤ 'Z') then a :: ' ' :: camelSpace (b :: r)
      else a :: camelSpace (b :: r)
  | l => l

/-- Is the character a JS word character (`\w` = `[A-Za-z0-9_]`)? -/
def isWordChar (c : Char) : Bool :=
  ('a' ≤ c && c ≤ 'z') || ('A' ≤ c && c ≤ 'Z') || ('0' ≤ c && c ≤ '9') || c = '_'

/-- `replace(/\b\w/g, l => l.toUpperCase())`: uppercase each word
character not preceded by a word character. -/
def upWordStarts (prevIsWord : Bool) : List Char → List Char
  | [] => []
  | c :: r =>
      (if isWordChar c ∧ prevIsWord = false then c.toUpper else c) :: upWordStarts (isWordChar c) r

/-- Mirrors `formatSectionTitle(key)` (source lines 622–635). -/
def formatSectionTitle (key : String) : String :=
  let t := stripTitleSuffix ["Step", "Section", "Form", "Page"] key
  let t := dashesToSpaces t
  let t := String.mk (camelSpace t.toList)
  let t := String.mk (upWordStarts false t.toList)
  trimAscii t

/-- Mirrors `formatBlockTitle(key, blockLabels)` (source lines 643–662).
A truthy `_blockTitle` from an object-typed label wins (and is returned
as-is, whatever JSON value it is); otherwise the key is formatted
generically, falling back to the raw key if that formats to the empty
string. -/
def formatBlockTitle (key : String) (blockLabels : JValue) : JValue :=
  let fromLabels : Option JValue :=
    match blockLabels with
    | jobj _ | jarr _ =>
        if truthy blockLabels ∧ truthyO (jsGetProp blockLabels "_blockTitle") then
          jsGetProp blockLabels "_blockTitle"
        else none
    | _ => none
  match fromLabels with
  | some t => t
  | none =>
      let t := stripTitleSuffix ["Block", "List", "Group", "Section", "Container"] key
      let t := dashesToSpaces t
      let t := String.mk (camelSpace t.toList)
      let t := String.mk (upWordStarts false t.toList)
      let t := trimAscii t
      if t = "" then jstr key else jstr t

/-! ### Output tree -/

/-- Output field record built by `processField` (source lines 437–457). -/
structure Field where
  id : String
  key : String
  label : JValue
  value : JValue
  displayValue : String
  fieldType : JValue
  isBoolean : Bool
  isCurrency : Bool
  isDate : Bool
  isEmail : Bool
  isPhone : Bool
  isNumber : Bool
  isText : Bool
  booleanIcon : String
  booleanIconClass : String
  colspan : Int
  spanClass : String
deriving Repr

/-- Column header of an array-table block. -/
structure Column where
  label : JValue
  fieldName : String
deriving Repr

/-- One processed row of an array-table block. -/
structure ArrayItem where
  id : String
  index : Nat
  fields : List Field
deriving Repr

/-- Output block record.  `processBlock` fills `fields`/`nestedBlocks`
(leaving `items`/`columns` empty) and `processArray` fills
`items`/`columns` (leaving `fields`/`nestedBlocks` empty), matching the
two JS object shapes. -/
inductive Block : Type where
  | mk (id : String) (title : JValue) (isBlock : Bool) (isArray : Bool)
       (fields : List Field) (nestedBlocks : List Block)
       (items : List ArrayItem) (columns : List Column) : Block
deriving Repr

def Block.id : Block → String
  | .mk i _ _ _ _ _ _ _ => i

def Block.title : Block → JValue
  | .mk _ t _ _ _ _ _ _ => t

def Block.isArray : Block → Bool
  | .mk _ _ _ a _ _ _ _ => a

def Block.fields : Block → List Field
  | .mk _ _ _ _ fs _ _ _ => fs

def Block.nestedBlocks : Block → List Block
  | .mk _ _ _ _ _ nbs _ _ => nbs

def Block.items : Block → List ArrayItem
  | .mk _ _ _ _ _ _ its _ => its

def Block.columns : Block → List Column
  | .mk _ _ _ _ _ _ _ cs => cs

/-- Output section record built by `processSection` (source lines
207–215 and 255–263); `order` is assigned afterwards by
`processFormData` and is `0` at creation. -/
structure Section where
  id : String
  title : JValue
  contentId : String
  isExpanded : Bool
  chevronIcon : String
  blocks : List Block
  fields : List Field
  hasFields : Bool
  hasBlocks : Bool
  order : Int
deriving Repr

/-! ### Field processing -/

/-- Mirrors `processField(key, value, labelInfo)` (source lines 409–458):
resolve label text, explicit type and colspan from the label entry and
build the field record.  Returns `none` for a falsy label entry, for a
non-string non-object entry, and for an object entry without a truthy
`label`. -/
def processField (key : String) (value : JValue) (labelInfo : JValue) : Option Field :=
  if truthy labelInfo = false then none
  else
    let resolved : Option (JValue × Option JValue × Int) :=
      match labelInfo with
      | jobj fs =>
          if truthyO (fs.lookup "label") then
            let colspan : Int :=
              match fs.lookup "colspan" with
              | some (jnum c) => min (max c 1) 12
              | _ => 6
            some ((fs.lookup "label").getD jnull, fs.lookup "type", colspan)
          else none
      | jstr s => some (jstr s, none, 6)
      | _ => none
    match resolved with
    | none => none
    | some (label, explicitType, colspan) =>
        let fieldType : JValue :=
          match explicitType with
          | some t => if truthy t then t else jstr (detectFieldType key value)
          | none => jstr (detectFieldType key value)
        let displayValue := formatValue value fieldType
        let isBoolean := strictEqStr fieldType "boolean"
        some
          { id := key, key := key, label := label, value := value,
            displayValue := displayValue, fieldType := fieldType,
            isBoolean := isBoolean,
            isCurrency := strictEqStr fieldType "currency",
            isDate := strictEqStr fieldType "date",
            isEmail := strictEqStr fieldType "email",
            isPhone := strictEqStr fieldType "phone",
            isNumber := strictEqStr fieldType "number",
            isText := !(strictEqStr fieldType "boolean" || strictEqStr fieldType "currency" ||
                        strictEqStr fieldType "date" || strictEqStr fieldType "email" ||
                        strictEqStr fieldType "phone" || strictEqStr fieldType "number"),
            booleanIcon := if isBoolean then (if truthy value then "utility:check" else "utility:close") else "",
            booleanIconClass := if isBoolean then (if truthy value then "icon-success" else "icon-error") else "",
            colspan := colspan,
            spanClass := "field-item span-" ++ toString colspan }

/-- The `isValidLabel` test (`typeof labelInfo === 'string' ||
(typeof labelInfo === 'object' && labelInfo.label)`, source lines
244–245, 308–309, 374–375).  In JS `typeof null === 'object'`, so a
`null` label entry evaluates `null.label` and throws a TypeError. -/
def isValidLabelM (labelInfo : JValue) : Except String Bool :=
  match labelInfo with
  | jstr _ => .ok true
  | jnull => .error "Cannot read properties of null"
  | jobj _ | jarr _ => .ok (truthyO (jsGetProp labelInfo "label"))
  | _ => .ok false

/-- Should a processed field be kept (`!hideEmptyFields ||
field.displayValue !== '—'`)? -/
def keepField (hide : Bool) (f : Field) : Bool :=
  !hide || f.displayValue != "—"

/-! ### Array blocks -/

/-- Field loop of one array item: iterate the item-schema entries in
order, skipping undefined values and invalid labels, and keep surviving
fields (source lines 366–391).  Reading a property of a `null` array
element faults. -/
def processItemFields (hide : Bool) (item : JValue) :
    List (String × JValue) → Except String (List Field)
  | [] => .ok []
  | (key, labelInfo) :: rest => do
      match ← jsPropEx item key with
      | none => processItemFields hide item rest
      | some value => do
          let valid ← isValidLabelM labelInfo
          if valid then
            match processField key value labelInfo with
            | some f =>
                if keepField hide f then
                  let fs ← processItemFields hide item rest
                  .ok (f :: fs)
                else processItemFields hide item rest
            | none => processItemFields hide item rest
          else processItemFields hide item rest

/-- Item loop of `processArray` (source lines 358–396): each array
element becomes a row when at least one field survives; column headers
are captured from the first element's surviving fields. -/
def processItems (hide : Bool) (arrayKey : String) (entries : List (String × JValue)) :
    Nat → List JValue → Except String (List ArrayItem × List Column)
  | _, [] => .ok ([], [])
  | index, item :: rest => do
      let fs ← processItemFields hide item entries
      let (its, cols) ← processItems hide arrayKey entries (index + 1) rest
      let its' :=
        if fs.isEmpty then its
        else { id := arrayKey ++ "_" ++ toString index, index := index + 1, fields := fs } :: its
      let cols' :=
        if index = 0 then (fs.map (fun f => ({ label := f.label, fieldName := f.key } : Column))) ++ cols
        else cols
      .ok (its', cols')

/-- Body of `processArray` once the item schema `il` has been resolved
(source lines 345–398): compute the title, walk the items, and keep the
block only when at least one row survives. -/
def processArrayCore (hide : Bool) (arrayKey : String) (xs : List JValue) (il : JValue) :
    Except String (Option Block) := do
  let title : JValue :=
    if truthyO (jsGetProp il "_blockTitle") then (jsGetProp il "_blockTitle").getD jnull
    else formatBlockTitle arrayKey il
  let entries := (jsEntries il).filter (fun e => !startsWithUnderscore e.1)
  let (its, cols) ← processItems hide arrayKey entries 0 xs
  if its.isEmpty then .ok none
  else .ok (some (.mk arrayKey title true true [] [] its cols))

/-- The item-schema resolution of `processArray` (source lines 337–339):
the label entry itself when it is an object, else the first element of a
non-empty array label. -/
def itemLabelsOf (arrayLabels : JValue) : Option JValue :=
  match arrayLabels with
  | jobj _ => some arrayLabels
  | jarr (l0 :: _) => some l0
  | _ => none

/-- Mirrors `processArray(arrayKey, arrayData, arrayLabels)` (source
lines 331–399).  Empty/missing data or a falsy label skips the entry; a
falsy resolved schema also skips it. -/
def processArray (hide : Bool) (arrayKey : String) (arrayData arrayLabels : JValue) :
    Except String (Option Block) :=
  match arrayData with
  | jarr xs =>
      if xs.isEmpty || !truthy arrayLabels then .ok none
      else
        match itemLabelsOf arrayLabels with
        | none => .ok none
        | some il =>
            if truthy il = false then .ok none
            else processArrayCore hide arrayKey xs il
  | _ => .ok none

/-! ### Block and section walkers -/

/-- Does the value satisfy `isObject(value) && !Array.isArray(value)`
(a plain object)? -/
def isPlainObj (v : JValue) : Bool :=
  match v with
  | jobj _ => true
  | _ => false

/-- Is the value an array (`Array.isArray(value)`)? -/
def isArrVal (v : JValue) : Bool :=
  match v with
  | jarr _ => true
  | _ => false

/-- `typeof v === 'object'` (true for objects, arrays and `null`). -/
def typeofIsObject (v : JValue) : Bool :=
  match v with
  | jobj _ | jarr _ | jnull => true
  | _ => false

/-- Packaging step shared by both shapes of `processBlock`: build the
block record and prune it when empty (source lines 277–285, 320–323). -/
def processBlockFinish (blockKey : String) (blockLabels : JValue)
    (r : Except String (List Field × List Block)) : Except String (Option Block) := do
  let (fs, bs) ← r
  if fs.isEmpty && bs.isEmpty then .ok none
  else .ok (some (.mk blockKey (formatBlockTitle blockKey blockLabels) true false fs bs [] []))

/-- One label entry of the `processBlock` loop (source lines 288–317):
underscore keys and undefined data values are skipped; a plain-object
data value contributes the recursive block result (passed in as
`nested`) when the label entry has `typeof === 'object'`; array data
values are never processed here; scalar values become fields when the
label is valid.  `restR` is the result of the remaining entries. -/
def blockEntryStep (hide : Bool) (blockData : JValue) (key : String) (labelInfo : JValue)
    (nested : Except String (Option Block))
    (restR : Except String (List Field × List Block)) :
    Except String (List Field × List Block) :=
  if startsWithUnderscore key then restR
  else
    match jsGetProp blockData key with
    | none => restR
    | some value =>
        if isPlainObj value then
          if typeofIsObject labelInfo then do
            let nb ← nested
            let (fs, bs) ← restR
            .ok (fs, match nb with | some b => b :: bs | none => bs)
          else restR
        else if isArrVal value then restR
        else do
          let valid ← isValidLabelM labelInfo
          if valid then
            match processField key value labelInfo with
            | some f =>
                if keepField hide f then do
                  let (fs, bs) ← restR
                  .ok (f :: fs, bs)
                else restR
            | none => restR
          else restR

mutual
/-- Mirrors `processBlock(blockKey, blockData, blockLabels)` (source
lines 271–324).  A falsy or non-object label entry yields `null`;
otherwise the label entries are walked in iteration order (an object's
keys in document order, an array's elements under their index keys) and
the block survives only with at least one field or nested block. -/
def processBlock (hide : Bool) (blockKey : String) (blockData blockLabels : JValue) :
    Except String (Option Block) :=
  match blockLabels with
  | jobj fs => processBlockFinish blockKey blockLabels (processBlockGoObj hide blockData fs)
  | jarr xs => processBlockFinish blockKey blockLabels (processBlockGoArr hide blockData 0 xs)
  | _ => .ok none

/-- The `processBlock` label-entry loop over an object label's
key/value pairs. -/
def processBlockGoObj (hide : Bool) (blockData : JValue) :
    List (String × JValue) → Except String (List Field × List Block)
  | [] => .ok ([], [])
  | (key, labelInfo) :: rest =>
      blockEntryStep hide blockData key labelInfo
        (processBlock hide key ((jsGetProp blockData key).getD jnull) labelInfo)
        (processBlockGoObj hide blockData rest)

/-- The `processBlock` label-entry loop over an array label's elements
(whose `Object.keys` are the canonical indices starting at `i`). -/
def processBlockGoArr (hide : Bool) (blockData : JValue) (i : Nat) :
    List JValue → Except String (List Field × List Block)
  | [] => .ok ([], [])
  | labelInfo :: rest =>
      blockEntryStep hide blockData (toString i) labelInfo
        (processBlock hide (toString i) ((jsGetProp blockData (toString i)).getD jnull) labelInfo)
        (processBlockGoArr hide blockData (i + 1) rest)
end

/-- One label entry of the `processSection` loop (source lines 220–253):
underscore keys and undefined data values are skipped; an array data
value contributes the array-block result (`arrB`), a plain object the
nested-block result (`objB`), and scalar values become fields when the
label is valid.  `restR` is the result of the remaining entries. -/
def sectionEntryStep (hide : Bool) (d : JValue) (key : String) (li : JValue)
    (arrB objB : Except String (Option Block))
    (restR : Except String (List Field × List Block)) :
    Except String (List Field × List Block) :=
  if startsWithUnderscore key then restR
  else
    match jsGetProp d key with
    | none => restR
    | some value =>
        if isArrVal value then do
          let ab ← arrB
          let (fs, bs) ← restR
          .ok (fs, match ab with | some b => b :: bs | none => bs)
        else if isPlainObj value then do
          let nb ← objB
          let (fs, bs) ← restR
          .ok (fs, match nb with | some b => b :: bs | none => bs)
        else do
          let valid ← isValidLabelM li
          if valid then
            match processField key value li with
            | some f =>
                if keepField hide f then do
                  let (fs, bs) ← restR
                  .ok (f :: fs, bs)
                else restR
            | none => restR
          else restR

/-- Label-entry loop of `processSection` (source lines 220–253). -/
def processSectionGo (hide : Bool) (sectionData : JValue) :
    List (String × JValue) → Except String (List Field × List Block)
  | [] => .ok ([], [])
  | (key, labelInfo) :: rest =>
      sectionEntryStep hide sectionData key labelInfo
        (processArray hide key ((jsGetProp sectionData key).getD jnull) labelInfo)
        (processBlock hide key ((jsGetProp sectionData key).getD jnull) labelInfo)
        (processSectionGo hide sectionData rest)

/-- Mirrors `processSection(sectionKey, sectionData, sectionLabels)`
(source lines 201–264).  The title prefers a truthy `_sectionTitle`; the
label keys are iterated in document order; the section survives only
with at least one field or block. -/
def processSection (hide : Bool) (sectionKey : String) (sectionData sectionLabels : JValue) :
    Except String (Option Section) := do
  let title : JValue :=
    if truthy sectionLabels ∧ truthyO (jsGetProp sectionLabels "_sectionTitle") then
      (jsGetProp sectionLabels "_sectionTitle").getD jnull
    else jstr (formatSectionTitle sectionKey)
  let entries := if truthy sectionLabels then jsEntries sectionLabels else []
  let (fs, bs) ← processSectionGo hide sectionData entries
  if bs.isEmpty = false ∨ fs.isEmpty = false then
    .ok (some
      { id := sectionKey, title := title, contentId := "content-" ++ sectionKey,
        isExpanded := true, chevronIcon := "utility:chevrondown",
        blocks := bs, fields := fs,
        hasFields := fs.isEmpty = false, hasBlocks := bs.isEmpty = false,
        order := 0 })
  else .ok none

/-! ### Top level -/

/-- Resolved order rank of a section: the label entry's `_order` when it
is a number, `999` otherwise (source lines 182–184). -/
def resolveOrder (labelInfo : JValue) : Int :=
  if truthy labelInfo then
    match jsGetProp labelInfo "_order" with
    | some (jnum n) => n
    | _ => 999
  else 999

/-! #### JSON.parse

`processFormData` opportunistically parses string-valued data entries and
`initializeData` parses string inputs.  We model `JSON.parse` with a
recursive-descent parser over the character list.  The recursion is fed a
fuel bounded by the input length plus one, which every real parse respects
(each nesting level consumes at least one character).  Deviations from the
host, both irrelevant to the claims: numeric literals are evaluated in the
integer model (fractional digits are dropped, a negative exponent yields
zero), and `\u` escapes that do not denote a valid scalar value fall back
to the null character. -/

/-- Skip JSON whitespace. -/
def skipWs (cs : List Char) : List Char :=
  cs.dropWhile (fun c => c = ' ' ∨ c = '\t' ∨ c = '\n' ∨ c = '\r')

/-- Parse the body of a JSON string literal after the opening quote. -/
def parseJsonString (fuel : Nat) (cs : List Char) : Option (String × List Char) :=
  match fuel, cs with
  | 0, _ => none
  | _, [] => none
  | fuel + 1, c :: rest =>
      if c = '"' then some ("", rest)
      else if c = '\\' then
        match rest with
        | [] => none
        | e :: rest2 =>
            let esc : Option (Char × List Char) :=
              if e = '"' then some ('"', rest2)
              else if e = '\\' then some ('\\', rest2)
              else if e = '/' then some ('/', rest2)
              else if e = 'b' then some ('\x08', rest2)
              else if e = 'f' then some ('\x0c', rest2)
              else if e = 'n' then some ('\n', rest2)
              else if e = 'r' then some ('\r', rest2)
              else if e = 't' then some ('\t', rest2)
              else if e = 'u' then
                match rest2 with
                | h1 :: h2 :: h3 :: h4 :: rest3 =>
                    let hexVal : Char → Option Nat := fun c =>
                      if c.isDigit then some (c.toNat - 48)
                      else if 'a' ≤ c ∧ c ≤ 'f' then some (c.toNat - 87)
                      else if 'A' ≤ c ∧ c ≤ 'F' then some (c.toNat - 55)
                      else none
                    match hexVal h1, hexVal h2, hexVal h3, hexVal h4 with
                    | some a, some b, some c, some d =>
                        some (Char.ofNat (((a * 16 + b) * 16 + c) * 16 + d), rest3)
                    | _, _, _, _ => none
                | _ => none
              else none
            match esc with
            | some (ch, rest') =>
                (parseJsonString fuel rest').map (fun p => (ch.toString ++ p.1, p.2))
            | none => none
      else (parseJsonString fuel rest).map (fun p => (c.toString ++ p.1, p.2))

/-- Parse a JSON number (integer model; see the section comment). -/
def parseJsonNumber (cs : List Char) : Option (Int × List Char) :=
  let (neg, cs) := match cs with
    | '-' :: rest => (true, rest)
    | _ => (false, cs)
  let ds := cs.takeWhile Char.isDigit
  if ds.isEmpty then none
  else
    let cs := cs.dropWhile Char.isDigit
    let mantissa : Int := digitsToNat ds
    let cs := match cs with
      | '.' :: rest => if (rest.takeWhile Char.isDigit).isEmpty then rest else rest.dropWhile Char.isDigit
      | _ => cs
    let (expVal, cs) : Option Int × List Char := match cs with
      | e :: rest =>
          if e = 'e' ∨ e = 'E' then
            let (eneg, rest2) := match rest with
              | '-' :: r2 => (true, r2)
              | '+' :: r2 => (false, r2)
              | r2 => (false, r2)
            let eds := rest2.takeWhile Char.isDigit
            if eds.isEmpty then (none, e :: rest)
            else ((if eneg then some (-(digitsToNat eds : Int)) else some (digitsToNat eds)),
                  rest2.dropWhile Char.isDigit)
          else (none, e :: rest)
      | [] => (none, [])
    let value : Int := match expVal with
      | some e => if e < 0 then 0 else mantissa * 10 ^ e.toNat
      | none => mantissa
    some ((if neg then -value else value), cs)

/-- Replace or append a key (object insertion order semantics: a
duplicate key keeps its first position but takes the later value). -/
def assocSet (fs : List (String × JValue)) (k : String) (v : JValue) : List (String × JValue) :=
  match fs with
  | [] => [(k, v)]
  | (k0, v0) :: rest => if k0 = k then (k, v) :: rest else (k0, v0) :: assocSet rest k v

mutual
/-- Parse one JSON value. -/
def parseJsonValue (fuel : Nat) (cs : List Char) : Option (JValue × List Char) :=
  match fuel with
  | 0 => none
  | fuel + 1 =>
      match skipWs cs with
      | [] => none
      | c :: rest =>
          if c = '{' then
            match skipWs rest with
            | '}' :: rest2 => some (jobj [], rest2)
            | _ => parseJsonMembers fuel rest []
          else if c = '[' then
            match skipWs rest with
            | ']' :: rest2 => some (jarr [], rest2)
            | _ => (parseJsonElements fuel rest).map (fun p => (jarr p.1, p.2))
          else if c = '"' then
            (parseJsonString (rest.length + 1) rest).map (fun p => (jstr p.1, p.2))
          else if c = 't' then
            match rest with
            | 'r' :: 'u' :: 'e' :: rest2 => some (jbool true, rest2)
            | _ => none
          else if c = 'f' then
            match rest with
            | 'a' :: 'l' :: 's' :: 'e' :: rest2 => some (jbool false, rest2)
            | _ => none
          else if c = 'n' then
            match rest with
            | 'u' :: 'l' :: 'l' :: rest2 => some (jnull, rest2)
            | _ => none
          else
            (parseJsonNumber (c :: rest)).map (fun p => (jnum p.1, p.2))

/-- Parse the members of an object after `{` (at least one member). -/
def parseJsonMembers (fuel : Nat) (cs : List Char) (acc : List (String × JValue)) :
    Option (JValue × List Char) :=
  match fuel with
  | 0 => none
  | fuel + 1 =>
      match skipWs cs with
      | '"' :: rest =>
          match parseJsonString (rest.length + 1) rest with
          | none => none
          | some (key, rest2) =>
              match skipWs rest2 with
              | ':' :: rest3 =>
                  match parseJsonValue fuel rest3 with
                  | none => none
                  | some (v, rest4) =>
                      let acc := assocSet acc key v
                      match skipWs rest4 with
                      | ',' :: rest5 => parseJsonMembers fuel rest5 acc
                      | '}' :: rest5 => some (jobj acc, rest5)
                      | _ => none
              | _ => none
      | _ => none

/-- Parse the elements of an array after `[` (at least one element). -/
def parseJsonElements (fuel : Nat) (cs : List Char) : Option (List JValue × List Char) :=
  match fuel with
  | 0 => none
  | fuel + 1 =>
      match parseJsonValue fuel cs with
      | none => none
      | some (v, rest) =>
          match skipWs rest with
          | ',' :: rest2 => (parseJsonElements fuel rest2).map (fun p => (v :: p.1, p.2))
          | ']' :: rest2 => some ([v], rest2)
          | _ => none
end

/-- `JSON.parse(s)`: parse the whole string, requiring only trailing
whitespace after the value. -/
def jsonParse (s : String) : Except String JValue :=
  match parseJsonValue (s.length + 1) s.toList with
  | some (v, rest) => if skipWs rest = [] then .ok v else .error "Unexpected token in JSON"
  | none => .error "Unexpected token in JSON"

/-- Handling of one defined, parsed top-level value (source lines
177–187): only a plain object becomes a section, tagged with its
resolved `_order` rank; anything else contributes nothing. -/
def processTopValue (hide : Bool) (key : String) (li : JValue) (value : JValue)
    (restR : Except String (List Section)) : Except String (List Section) :=
  if isPlainObj value then do
    let s? ← processSection hide key value li
    let rest' ← restR
    match s? with
    | some s => .ok ({ s with order := resolveOrder li } :: rest')
    | none => .ok rest'
  else restR

/-- Opportunistic `JSON.parse` of a string-valued top-level data entry
(source lines 167–174): a non-string passes through, a failed parse
yields `none` (the entry is skipped). -/
def parseTopValue (value0 : JValue) : Option JValue :=
  match value0 with
  | jstr s => (match jsonParse s with | .ok v => some v | .error _ => none)
  | v => some v

/-- Key loop of `processFormData` (source lines 156–188): keys on the
skip list are dropped; `undefined`/`null` data values are skipped;
string values are opportunistically `JSON.parse`d (a failure skips the
entry); plain-object values become sections, tagged with their resolved
`_order` rank.  Note that top-level keys are not filtered for a leading
underscore. -/
def processFormDataGo (hide : Bool) (skip : List String) (formData : JValue) :
    List (String × JValue) → Except String (List Section)
  | [] => .ok []
  | (key, labelInfo) :: rest =>
      if skip.contains key then processFormDataGo hide skip formData rest
      else do
        match ← jsPropEx formData key with
        | none => processFormDataGo hide skip formData rest
        | some jnull => processFormDataGo hide skip formData rest
        | some value0 =>
            match parseTopValue value0 with
            | none => processFormDataGo hide skip formData rest
            | some value =>
                processTopValue hide key labelInfo value
                  (processFormDataGo hide skip formData rest)

/-- The section list before sorting: sections in label-document
iteration order. -/
def processFormDataPre (hide : Bool) (skip : List String) (formData labelData : JValue) :
    Except String (List Section) :=
  processFormDataGo hide skip formData (if truthy labelData then jsEntries labelData else [])

/-- Stable insertion of a section into an already-sorted list: the new
section goes after every section of rank at most its own.  Models the
stable `Array.prototype.sort` with comparator `(a, b) => a.order - b.order`. -/
def insertByOrder (s : Section) : List Section → List Section
  | [] => [s]
  | t :: r => if t.order ≤ s.order then t :: insertByOrder s r else s :: t :: r

/-- Stable ascending sort by `order` (source line 191). -/
def sortByOrder (l : List Section) : List Section :=
  l.foldl (fun acc s => insertByOrder s acc) []

/-- Mirrors `processFormData()` (source lines 150–194): build the
section list from the label document's keys and sort it stably by
resolved order rank. -/
def processFormData (hide : Bool) (skip : List String) (formData labelData : JValue) :
    Except String (List Section) :=
  (processFormDataPre hide skip formData labelData).map sortByOrder

/-! ### Initialization (`initializeData`, source lines 77–143)

The component state after one initialization pass.  `processedSections`
keeps its initial empty value on the error paths (the source never
assigns it there). -/

structure InitState where
  hasError : Bool
  errorMessage : String
  isLoading : Bool
  processedSections : List Section
deriving Repr

/-- The host-supplied inputs: the OmniScript JSON and the two API
properties (`none` models an unset/`undefined` property). -/
structure HostInputs where
  omniJsonData : Option JValue
  formData : Option JValue
  labelData : Option JValue

/-- First truthy value of a chain `a || b || ...`, with a fallback. -/
def firstTruthy (l : List (Option JValue)) (dflt : JValue) : JValue :=
  match l with
  | [] => dflt
  | v :: rest => if truthyO v then v.getD jnull else firstTruthy rest dflt

/-- Input resolution inside `initializeData`'s try block (source lines
86–127): probe the OmniScript wrapper under its conventional keys, parse
string label data with an internally-caught failure, then let the API
properties override, where a string API property is parsed with any
failure propagating to the catch-all. -/
def resolveData (inp : HostInputs) : Except String (JValue × JValue) := do
  let (fd0, ld0) : JValue × JValue :=
    match inp.omniJsonData with
    | some o =>
        if truthy o then
          let fd := firstTruthy [jsGetProp o "formData", jsGetProp o "reviewData"] o
          let lsrc := firstTruthy
            [jsGetProp o "labelData", jsGetProp o "labels", jsGetProp o "fieldLabels"] (jobj [])
          let ld := match lsrc with
            | jstr s => (match jsonParse s with | .ok v => v | .error _ => jobj [])
            | v => v
          (fd, ld)
        else (jnull, jnull)
    | none => (jnull, jnull)
  let fd ←
    if truthyO inp.formData then
      match inp.formData.getD jnull with
      | jstr s => jsonParse s
      | v => pure v
    else pure fd0
  let ld ←
    if truthyO inp.labelData then
      match inp.labelData.getD jnull with
      | jstr s => jsonParse s
      | v => pure v
    else pure ld0
  pure (fd, ld)

/-- Mirrors `initializeData()` (source lines 77–143; named `initData`
here because of a lexical restriction of this development's toolchain).
The try block resolves the inputs and processes the form data; a falsy
resolved data document produces the typed no-data error; any exception
(JSON parse failure of an API string property, or a TypeError from the
walk) is caught and becomes the typed processing-error state. -/
def initData (inp : HostInputs) (hide : Bool) (skip : List String) : InitState :=
  match resolveData inp with
  | .error msg =>
      { hasError := true, errorMessage := "Error processing form data: " ++ msg,
        isLoading := false, processedSections := [] }
  | .ok (fd, ld) =>
      if truthy fd then
        match processFormData hide skip fd ld with
        | .ok sections =>
            { hasError := false, errorMessage := "", isLoading := false,
              processedSections := sections }
        | .error msg =>
            { hasError := true, errorMessage := "Error processing form data: " ++ msg,
              isLoading := false, processedSections := [] }
      else
        { hasError := true, errorMessage := "No form data provided.", isLoading := false,
          processedSections := [] }

/-! ### Derived views of the output tree -/

mutual
/-- All fields anywhere inside a block: its own fields, its array rows'
fields, and the fields of nested blocks, recursively. -/
def Block.flatFields : Block → List Field
  | .mk _ _ _ _ fs nbs its _ =>
      fs ++ (its.map ArrayItem.fields).flatten ++ Block.flatFieldsList nbs

def Block.flatFieldsList : List Block → List Field
  | [] => []
  | b :: r => Block.flatFields b ++ Block.flatFieldsList r
end

mutual
/-- All identifiers introduced inside a block (field ids, array rows'
field ids, nested block ids and their inner ids) — the block's own id is
not included. -/
def Block.innerIds : Block → List String
  | .mk _ _ _ _ fs nbs its _ =>
      fs.map Field.id ++ (its.map (fun it => it.fields.map Field.id)).flatten ++
        Block.innerIdsList nbs

def Block.innerIdsList : List Block → List String
  | [] => []
  | b :: r => [Block.id b] ++ Block.innerIds b ++ Block.innerIdsList r
end

mutual
/-- Structural size of a JSON value (used for strong induction over the
label tree). -/
def jsize : JValue → Nat
  | jobj fs => 1 + jsizePairs fs
  | jarr xs => 1 + jsizeList xs
  | _ => 1

def jsizeList : List JValue → Nat
  | [] => 0
  | v :: r => 1 + jsize v + jsizeList r

def jsizePairs : List (String × JValue) → Nat
  | [] => 0
  | p :: r => 1 + jsize p.2 + jsizePairs r
end

/-- Invariant of every emitted field under options `hide`: its id is not
reserved metadata, and under `hideEmptyFields` it does not display the
placeholder. -/
def FieldInvs (hide : Bool) (fs : List Field) : Prop :=
  ∀ f ∈ fs, startsWithUnderscore f.id = false ∧ (hide = true → f.displayValue ≠ "—")

/-- Invariant of every emitted block: no reserved-metadata id anywhere
inside, no placeholder field anywhere inside under `hideEmptyFields`,
and at least one field, nested block or row. -/
def BlockInv (hide : Bool) (b : Block) : Prop :=
  (∀ i ∈ Block.innerIds b, startsWithUnderscore i = false) ∧
  (hide = true → ∀ f ∈ Block.flatFields b, f.displayValue ≠ "—") ∧
  (Block.fields b ≠ [] ∨ Block.nestedBlocks b ≠ [] ∨ Block.items b ≠ [])

/-- A minimal concrete data document used by several witnesses. -/
def wData : JValue := jobj [("S", jobj [("f", jnum 1)])]

/-- The label document matching `wData`. -/
def wLabels : JValue := jobj [("S", jobj [("f", jstr "F")])]

/-- The field the pipeline produces for `wData`/`wLabels`. -/
def wField : Field :=
  { id := "f", key := "f", label := jstr "F", value := jnum 1,
    displayValue := "1", fieldType := jstr "text", isBoolean := false, isCurrency := false,
    isDate := false, isEmail := false, isPhone := false, isNumber := false, isText := true,
    booleanIcon := "", booleanIconClass := "", colspan := 6, spanClass := "field-item span-6" }

/-- The section the pipeline produces for `wData`/`wLabels` (order `0`
as built by `processSection`; `processFormData` re-tags it with `999`). -/
def wSection : Section :=
  { id := "S", title := jstr "S", contentId := "content-S",
    isExpanded := true, chevronIcon := "utility:chevrondown", blocks := [], fields := [wField],
    hasFields := true, hasBlocks := false, order := 0 }

/-! ### Lemmas: the stable sort -/

theorem mem_insertByOrder {t s : Section} {l : List Section} :
    t ∈ insertByOrder s l ↔ t = s ∨ t ∈ l := by
  induction l with
  | nil => simp [insertByOrder]
  | cons hd tl ih =>
      simp only [insertByOrder]
      by_cases h : hd.order ≤ s.order <;> simp [h, ih] <;> tauto

theorem insertByOrder_sorted {s : Section} {l : List Section}
    (hl : l.Pairwise (fun a b => a.order ≤ b.order)) :
    (insertByOrder s l).Pairwise (fun a b => a.order ≤ b.order) := by
  induction l with
  | nil => simp [insertByOrder]
  | cons hd tl ih =>
      rcases List.pairwise_cons.mp hl with ⟨hhd, htl⟩
      simp only [insertByOrder]
      by_cases h : hd.order ≤ s.order
      · simp only [h, if_true]
        refine List.pairwise_cons.mpr ⟨?_, ih htl⟩
        intro t ht
        rcases mem_insertByOrder.mp ht with rfl | ht
        · exact h
        · exact hhd t ht
      · simp only [h, if_false]
        refine List.pairwise_cons.mpr ⟨?_, hl⟩
        intro t ht
        rcases ht with _ | ht
        · omega
        · exact le_trans (by omega) (hhd t (by assumption))

theorem filter_insertByOrder {s : Section} {l : List Section} {r : Int}
    (hl : l.Pairwise (fun a b => a.order ≤ b.order)) :
    (insertByOrder s l).filter (fun t => t.order == r) =
      l.filter (fun t => t.order == r) ++ (if s.order = r then [s] else []) := by
  induction l with
  | nil =>
      by_cases h1 : s.order = r <;> simp [insertByOrder, List.filter_cons, h1]
  | cons hd tl ih =>
      rcases List.pairwise_cons.mp hl with ⟨hhd, htl⟩
      simp only [insertByOrder]
      by_cases h : hd.order ≤ s.order
      · rw [if_pos h, List.filter_cons, List.filter_cons, ih htl]
        by_cases hh : hd.order = r <;> simp [hh]
      · rw [if_neg h, List.filter_cons]
        by_cases h1 : s.order = r
        · rw [if_pos (by simp [h1])]
          have hnil : (hd :: tl).filter (fun t => t.order == r) = [] := by
            rw [List.filter_eq_nil_iff]
            intro t ht
            have hge : hd.order ≤ t.order := by
              rcases ht with _ | ht
              · exact le_refl _
              · exact hhd t (by assumption)
            simp only [beq_iff_eq]
            omega
          simp [hnil, h1]
        · rw [if_neg (by simp [h1])]
          simp [h1]

theorem sortByOrder_spec (l : List Section) :
    (sortByOrder l).Pairwise (fun a b => a.order ≤ b.order) ∧
      ∀ r : Int, (sortByOrder l).filter (fun t => t.order == r) =
        l.filter (fun t => t.order == r) := by
  have main : ∀ (l : List Section) (acc : List Section),
      acc.Pairwise (fun a b => a.order ≤ b.order) →
      (l.foldl (fun acc s => insertByOrder s acc) acc).Pairwise (fun a b => a.order ≤ b.order) ∧
      ∀ r : Int, (l.foldl (fun acc s => insertByOrder s acc) acc).filter (fun t => t.order == r) =
        acc.filter (fun t => t.order == r) ++ l.filter (fun t => t.order == r) := by
    intro l
    induction l with
    | nil => intro acc hacc; simpa using hacc
    | cons hd tl ih =>
        intro acc hacc
        have hacc' := insertByOrder_sorted (s := hd) hacc
        rcases ih (insertByOrder hd acc) hacc' with ⟨hs, hf⟩
        refine ⟨hs, ?_⟩
        intro r
        rw [List.foldl_cons, hf r, filter_insertByOrder hacc]
        by_cases h : hd.order = r <;> simp [List.filter_cons, h]
  have := main l []
  simpa [sortByOrder] using this (by simp)

theorem mem_sortByOrder {t : Section} {l : List Section} :
    t ∈ sortByOrder l ↔ t ∈ l := by
  have main : ∀ (l acc : List Section),
      (∀ u, u ∈ l.foldl (fun acc s => insertByOrder s acc) acc ↔ u ∈ acc ∨ u ∈ l) := by
    intro l
    induction l with
    | nil => intro acc u; simp
    | cons hd tl ih =>
        intro acc u
        rw [List.foldl_cons, ih (insertByOrder hd acc) u, mem_insertByOrder]
        simp only [List.mem_cons]
        tauto
  have := main l [] t
  simpa [sortByOrder] using this

/-! ### Lemmas: fields and block packaging -/

theorem processField_some {k : String} {v li : JValue} {f : Field}
    (h : processField k v li = some f) : f.id = k ∧ f.key = k := by
  unfold processField at h
  split at h
  · simp at h
  · dsimp only at h
    split at h
    · simp at h
    · rename_i label explicitType colspan heq
      simp only [Option.some.injEq] at h
      subst h
      exact ⟨rfl, rfl⟩

theorem keepField_hide {f : Field} (h : keepField true f = true) :
    f.displayValue ≠ "—" := by
  simpa [keepField] using h

theorem processBlockFinish_some {k : String} {l : JValue}
    {r : Except String (List Field × List Block)} {b : Block}
    (h : processBlockFinish k l r = .ok (some b)) :
    ∃ fs bs, r = .ok (fs, bs) ∧ (fs.isEmpty = false ∨ bs.isEmpty = false) ∧
      b = .mk k (formatBlockTitle k l) true false fs bs [] [] := by
  unfold processBlockFinish at h
  cases r with
  | error e => simp only [bind, Except.bind] at h; exact absurd h (by simp)
  | ok p =>
      cases p with
      | mk fs bs =>
          refine ⟨fs, bs, rfl, ?_⟩
          simp only [Except.bind, bind, pure] at h
          split at h
          · simp [Except.pure] at h
          · rename_i hcond
            simp only [Except.pure, Except.ok.injEq, Option.some.injEq] at h
            subst h
            refine ⟨?_, rfl⟩
            cases hfs : fs.isEmpty <;> cases hbs : bs.isEmpty <;> simp_all

theorem processBlock_some_shape {hide : Bool} {k : String} {d l : JValue} {b : Block}
    (h : processBlock hide k d l = .ok (some b)) :
    Block.id b = k ∧ Block.isArray b = false ∧ Block.items b = [] ∧
      Block.columns b = [] ∧
      (Block.fields b ≠ [] ∨ Block.nestedBlocks b ≠ []) := by
  unfold processBlock at h
  split at h
  · rcases processBlockFinish_some h with ⟨fs, bs, _, hne, rfl⟩
    refine ⟨rfl, rfl, rfl, rfl, ?_⟩
    rcases hne with h1 | h1
    · exact Or.inl (by simpa using h1)
    · exact Or.inr (by simpa using h1)
  · rcases processBlockFinish_some h with ⟨fs, bs, _, hne, rfl⟩
    refine ⟨rfl, rfl, rfl, rfl, ?_⟩
    rcases hne with h1 | h1
    · exact Or.inl (by simpa using h1)
    · exact Or.inr (by simpa using h1)
  · simp at h

theorem processArrayCore_some {hide : Bool} {k : String} {xs : List JValue} {il : JValue}
    {b : Block} (h : processArrayCore hide k xs il = .ok (some b)) :
    ∃ its cols,
      processItems hide k ((jsEntries il).filter (fun e => !startsWithUnderscore e.1)) 0 xs =
        .ok (its, cols) ∧ its ≠ [] ∧
      b = .mk k (if truthyO (jsGetProp il "_blockTitle") then (jsGetProp il "_blockTitle").getD jnull
                 else formatBlockTitle k il) true true [] [] its cols := by
  unfold processArrayCore at h
  simp only [bind, Except.bind] at h
  cases hpi : processItems hide k ((jsEntries il).filter (fun e => !startsWithUnderscore e.1)) 0 xs with
  | error e => rw [hpi] at h; simp at h
  | ok p =>
      rw [hpi] at h
      cases p with
      | mk its cols =>
          dsimp only at h
          split at h
          · simp at h
          · rename_i hits
            simp only [Except.ok.injEq, Option.some.injEq] at h
            subst h
            exact ⟨its, cols, rfl, by simpa using hits, rfl⟩

theorem processArray_some_shape {hide : Bool} {k : String} {d l : JValue} {b : Block}
    (h : processArray hide k d l = .ok (some b)) :
    Block.id b = k ∧ Block.isArray b = true ∧ Block.fields b = [] ∧
      Block.nestedBlocks b = [] ∧ Block.items b ≠ [] := by
  unfold processArray at h
  split at h
  · split at h
    · simp at h
    · split at h
      · simp at h
      · split at h
        · simp at h
        · rcases processArrayCore_some h with ⟨its, cols, _, hits, rfl⟩
          exact ⟨rfl, rfl, rfl, rfl, by simpa using hits⟩
  · simp at h

/-! ### Lemmas: inversion of the walker loops -/

theorem blockEntryStep_inv {hide : Bool} {d : JValue} {key : String} {li : JValue}
    {nested : Except String (Option Block)} {restR : Except String (List Field × List Block)}
    {fs : List Field} {bs : List Block}
    (h : blockEntryStep hide d key li nested restR = .ok (fs, bs)) :
    ∃ fs' bs', restR = .ok (fs', bs') ∧
      ((fs = fs' ∧ bs = bs') ∨
       (∃ v b, jsGetProp d key = some v ∧ isPlainObj v = true ∧
          startsWithUnderscore key = false ∧ typeofIsObject li = true ∧
          nested = .ok (some b) ∧ fs = fs' ∧ bs = b :: bs') ∨
       (∃ v f, jsGetProp d key = some v ∧ isPlainObj v = false ∧ isArrVal v = false ∧
          startsWithUnderscore key = false ∧ processField key v li = some f ∧
          keepField hide f = true ∧ fs = f :: fs' ∧ bs = bs')) := by
  unfold blockEntryStep at h
  split at h
  · exact ⟨fs, bs, h, Or.inl ⟨rfl, rfl⟩⟩
  · rename_i hu
    cases hv : jsGetProp d key with
    | none => rw [hv] at h; exact ⟨fs, bs, h, Or.inl ⟨rfl, rfl⟩⟩
    | some value =>
        rw [hv] at h
        dsimp only at h
        split at h
        · rename_i hobj
          split at h
          · rename_i hto
            simp only [bind, Except.bind] at h
            cases hn : nested with
            | error e => rw [hn] at h; exact absurd h (by simp)
            | ok nb =>
                rw [hn] at h
                cases hr : restR with
                | error e => rw [hr] at h; exact absurd h (by simp)
                | ok p =>
                    rw [hr] at h
                    cases p with
                    | mk fs' bs' =>
                        simp only [Except.ok.injEq, Prod.mk.injEq] at h
                        rcases h with ⟨rfl, rfl⟩
                        cases nb with
                        | none => exact ⟨fs', bs', rfl, Or.inl ⟨rfl, rfl⟩⟩
                        | some b =>
                            exact ⟨fs', bs', rfl, Or.inr (Or.inl
                              ⟨value, b, rfl, hobj, by simpa using hu, hto, rfl, rfl, rfl⟩)⟩
          · exact ⟨fs, bs, h, Or.inl ⟨rfl, rfl⟩⟩
        · rename_i hobj
          split at h
          · exact ⟨fs, bs, h, Or.inl ⟨rfl, rfl⟩⟩
          · rename_i harr
            simp only [bind, Except.bind] at h
            cases hvl : isValidLabelM li with
            | error e => rw [hvl] at h; exact absurd h (by simp)
            | ok valid =>
                rw [hvl] at h
                cases valid with
                | false => exact ⟨fs, bs, by simpa using h, Or.inl ⟨rfl, rfl⟩⟩
                | true =>
                    try dsimp only at h
                    cases hpf : processField key value li with
                    | none => rw [hpf] at h; exact ⟨fs, bs, h, Or.inl ⟨rfl, rfl⟩⟩
                    | some f =>
                        rw [hpf] at h
                        try dsimp only at h
                        cases hk : keepField hide f with
                        | false => rw [hk] at h; exact ⟨fs, bs, by simpa using h, Or.inl ⟨rfl, rfl⟩⟩
                        | true =>
                            rw [hk] at h
                            try dsimp only at h
                            cases hr : restR with
                            | error e => rw [hr] at h; exact absurd h (by simp)
                            | ok p =>
                                rw [hr] at h
                                cases p with
                                | mk fs' bs' =>
                                    simp at h
                                    rcases h with ⟨rfl, rfl⟩
                                    exact ⟨_, _, rfl, Or.inr (Or.inr
                                      ⟨value, f, rfl, by simpa using hobj, by simpa using harr,
                                       by simpa using hu, hpf, hk, rfl, rfl⟩)⟩

theorem processBlockGoArr_eq (hide : Bool) (d : JValue) (i : Nat) (xs : List JValue) :
    processBlockGoArr hide d i xs = processBlockGoObj hide d (arrEntries i xs) := by
  induction xs generalizing i with
  | nil => rfl
  | cons v r ih => simp [processBlockGoArr, processBlockGoObj, arrEntries, ih]

theorem processBlockGoObj_inv {hide : Bool} {d : JValue}
    {entries : List (String × JValue)} {fs : List Field} {bs : List Block}
    (h : processBlockGoObj hide d entries = .ok (fs, bs)) :
    (∀ f ∈ fs, ∃ k li v, (k, li) ∈ entries ∧ startsWithUnderscore k = false ∧
        jsGetProp d k = some v ∧ isPlainObj v = false ∧ isArrVal v = false ∧
        processField k v li = some f ∧ keepField hide f = true) ∧
    (∀ b ∈ bs, ∃ k li v, (k, li) ∈ entries ∧ startsWithUnderscore k = false ∧
        jsGetProp d k = some v ∧ isPlainObj v = true ∧ typeofIsObject li = true ∧
        processBlock hide k v li = .ok (some b)) ∧
    List.Sublist (fs.map Field.id) (entries.map Prod.fst) ∧
    List.Sublist (bs.map Block.id) (entries.map Prod.fst) := by
  induction entries generalizing fs bs with
  | nil =>
      simp only [processBlockGoObj, Except.ok.injEq, Prod.mk.injEq] at h
      rcases h with ⟨rfl, rfl⟩
      simp
  | cons e rest ih =>
      cases e with
      | mk key li =>
          simp only [processBlockGoObj] at h
          rcases blockEntryStep_inv h with ⟨fs', bs', hrest, hcase⟩
          rcases ih hrest with ⟨ihf, ihb, ihsf, ihsb⟩
          rcases hcase with ⟨rfl, rfl⟩ | ⟨v, b, hv, hpo, hu, hto, hn, rfl, rfl⟩ |
            ⟨v, f, hv, hpo, har, hu, hpf, hk, rfl, rfl⟩
          · refine ⟨?_, ?_, ?_, ?_⟩
            · intro f hf
              rcases ihf f hf with ⟨k, li', v, hm, rest'⟩
              exact ⟨k, li', v, List.mem_cons_of_mem _ hm, rest'⟩
            · intro b hb
              rcases ihb b hb with ⟨k, li', v, hm, rest'⟩
              exact ⟨k, li', v, List.mem_cons_of_mem _ hm, rest'⟩
            · exact ihsf.cons _
            · exact ihsb.cons _
          · have hpb : processBlock hide key v li = .ok (some b) := by
              rw [hv] at hn
              simpa using hn
            refine ⟨?_, ?_, ?_, ?_⟩
            · intro f hf
              rcases ihf f hf with ⟨k, li', v', hm, rest'⟩
              exact ⟨k, li', v', List.mem_cons_of_mem _ hm, rest'⟩
            · intro b' hb'
              rcases List.mem_cons.mp hb' with rfl | hb'
              · exact ⟨key, li, v, List.mem_cons_self _ _, hu, hv, hpo, hto, hpb⟩
              · rcases ihb b' hb' with ⟨k, li', v', hm, rest'⟩
                exact ⟨k, li', v', List.mem_cons_of_mem _ hm, rest'⟩
            · exact ihsf.cons _
            · have hid : Block.id b = key := (processBlock_some_shape hpb).1
              simpa [hid] using ihsb.cons₂ key
          · refine ⟨?_, ?_, ?_, ?_⟩
            · intro f' hf'
              rcases List.mem_cons.mp hf' with rfl | hf'
              · exact ⟨key, li, v, List.mem_cons_self _ _, hu, hv, hpo, har, hpf, hk⟩
              · rcases ihf f' hf' with ⟨k, li', v', hm, rest'⟩
                exact ⟨k, li', v', List.mem_cons_of_mem _ hm, rest'⟩
            · intro b hb
              rcases ihb b hb with ⟨k, li', v', hm, rest'⟩
              exact ⟨k, li', v', List.mem_cons_of_mem _ hm, rest'⟩
            · have hid : f.id = key := (processField_some hpf).1
              simpa [hid] using ihsf.cons₂ key
            · exact ihsb.cons _

theorem sectionEntryStep_inv {hide : Bool} {d : JValue} {key : String} {li : JValue}
    {arrB objB : Except String (Option Block)} {restR : Except String (List Field × List Block)}
    {fs : List Field} {bs : List Block}
    (h : sectionEntryStep hide d key li arrB objB restR = .ok (fs, bs)) :
    ∃ fs' bs', restR = .ok (fs', bs') ∧
      ((fs = fs' ∧ bs = bs') ∨
       (∃ v b, jsGetProp d key = some v ∧ isArrVal v = true ∧
          startsWithUnderscore key = false ∧ arrB = .ok (some b) ∧ fs = fs' ∧ bs = b :: bs') ∨
       (∃ v b, jsGetProp d key = some v ∧ isArrVal v = false ∧ isPlainObj v = true ∧
          startsWithUnderscore key = false ∧ objB = .ok (some b) ∧ fs = fs' ∧ bs = b :: bs') ∨
       (∃ v f, jsGetProp d key = some v ∧ isPlainObj v = false ∧ isArrVal v = false ∧
          startsWithUnderscore key = false ∧ processField key v li = some f ∧
          keepField hide f = true ∧ fs = f :: fs' ∧ bs = bs')) := by
  unfold sectionEntryStep at h
  split at h
  · exact ⟨fs, bs, h, Or.inl ⟨rfl, rfl⟩⟩
  · rename_i hu
    cases hv : jsGetProp d key with
    | none => rw [hv] at h; exact ⟨fs, bs, h, Or.inl ⟨rfl, rfl⟩⟩
    | some value =>
        rw [hv] at h
        dsimp only at h
        split at h
        · rename_i harr
          simp only [bind, Except.bind] at h
          cases hn : arrB with
          | error e => rw [hn] at h; exact absurd h (by simp)
          | ok nb =>
              rw [hn] at h
              cases hr : restR with
              | error e => rw [hr] at h; exact absurd h (by simp)
              | ok p =>
                  rw [hr] at h
                  cases p with
                  | mk fs' bs' =>
                      simp only [Except.ok.injEq, Prod.mk.injEq] at h
                      rcases h with ⟨rfl, rfl⟩
                      cases nb with
                      | none => exact ⟨fs', bs', rfl, Or.inl ⟨rfl, rfl⟩⟩
                      | some b =>
                          exact ⟨fs', bs', rfl, Or.inr (Or.inl
                            ⟨value, b, rfl, harr, by simpa using hu, rfl, rfl, rfl⟩)⟩
        · rename_i harr
          split at h
          · rename_i hobj
            simp only [bind, Except.bind] at h
            cases hn : objB with
            | error e => rw [hn] at h; exact absurd h (by simp)
            | ok nb =>
                rw [hn] at h
                cases hr : restR with
                | error e => rw [hr] at h; exact absurd h (by simp)
                | ok p =>
                    rw [hr] at h
                    cases p with
                    | mk fs' bs' =>
                        simp only [Except.ok.injEq, Prod.mk.injEq] at h
                        rcases h with ⟨rfl, rfl⟩
                        cases nb with
                        | none => exact ⟨fs', bs', rfl, Or.inl ⟨rfl, rfl⟩⟩
                        | some b =>
                            exact ⟨fs', bs', rfl, Or.inr (Or.inr (Or.inl
                              ⟨value, b, rfl, by simpa using harr, hobj,
                               by simpa using hu, rfl, rfl, rfl⟩))⟩
          · rename_i hobj
            simp only [bind, Except.bind] at h
            cases hvl : isValidLabelM li with
            | error e => rw [hvl] at h; exact absurd h (by simp)
            | ok valid =>
                rw [hvl] at h
                cases valid with
                | false => exact ⟨fs, bs, by simpa using h, Or.inl ⟨rfl, rfl⟩⟩
                | true =>
                    try dsimp only at h
                    cases hpf : processField key value li with
                    | none => rw [hpf] at h; exact ⟨fs, bs, h, Or.inl ⟨rfl, rfl⟩⟩
                    | some f =>
                        rw [hpf] at h
                        try dsimp only at h
                        cases hk : keepField hide f with
                        | false => rw [hk] at h; exact ⟨fs, bs, by simpa using h, Or.inl ⟨rfl, rfl⟩⟩
                        | true =>
                            rw [hk] at h
                            try dsimp only at h
                            cases hr : restR with
                            | error e => rw [hr] at h; exact absurd h (by simp)
                            | ok p =>
                                rw [hr] at h
                                cases p with
                                | mk fs' bs' =>
                                    simp at h
                                    rcases h with ⟨rfl, rfl⟩
                                    exact ⟨_, _, rfl, Or.inr (Or.inr (Or.inr
                                      ⟨value, f, rfl, by simpa using hobj, by simpa using harr,
                                       by simpa using hu, hpf, hk, rfl, rfl⟩))⟩

theorem processSectionGo_inv {hide : Bool} {d : JValue}
    {entries : List (String × JValue)} {fs : List Field} {bs : List Block}
    (h : processSectionGo hide d entries = .ok (fs, bs)) :
    (∀ f ∈ fs, ∃ k li v, (k, li) ∈ entries ∧ startsWithUnderscore k = false ∧
        jsGetProp d k = some v ∧ isPlainObj v = false ∧ isArrVal v = false ∧
        processField k v li = some f ∧ keepField hide f = true) ∧
    (∀ b ∈ bs, ∃ k li v, (k, li) ∈ entries ∧ startsWithUnderscore k = false ∧
        jsGetProp d k = some v ∧
        ((isArrVal v = true ∧ processArray hide k v li = .ok (some b)) ∨
         (isPlainObj v = true ∧ processBlock hide k v li = .ok (some b)))) ∧
    List.Sublist (fs.map Field.id) (entries.map Prod.fst) ∧
    List.Sublist (bs.map Block.id) (entries.map Prod.fst) := by
  induction entries generalizing fs bs with
  | nil =>
      simp only [processSectionGo, Except.ok.injEq, Prod.mk.injEq] at h
      rcases h with ⟨rfl, rfl⟩
      simp
  | cons e rest ih =>
      cases e with
      | mk key li =>
          simp only [processSectionGo] at h
          rcases sectionEntryStep_inv h with ⟨fs', bs', hrest, hcase⟩
          rcases ih hrest with ⟨ihf, ihb, ihsf, ihsb⟩
          rcases hcase with ⟨rfl, rfl⟩ | ⟨v, b, hv, har, hu, hn, rfl, rfl⟩ |
            ⟨v, b, hv, har, hpo, hu, hn, rfl, rfl⟩ |
            ⟨v, f, hv, hpo, har, hu, hpf, hk, rfl, rfl⟩
          · refine ⟨?_, ?_, ihsf.cons _, ihsb.cons _⟩
            · intro f hf
              rcases ihf f hf with ⟨k, li', v, hm, rest'⟩
              exact ⟨k, li', v, List.mem_cons_of_mem _ hm, rest'⟩
            · intro b hb
              rcases ihb b hb with ⟨k, li', v, hm, rest'⟩
              exact ⟨k, li', v, List.mem_cons_of_mem _ hm, rest'⟩
          · have hpb : processArray hide key v li = .ok (some b) := by
              rw [hv] at hn
              simpa using hn
            refine ⟨?_, ?_, ihsf.cons _, ?_⟩
            · intro f hf
              rcases ihf f hf with ⟨k, li', v', hm, rest'⟩
              exact ⟨k, li', v', List.mem_cons_of_mem _ hm, rest'⟩
            · intro b' hb'
              rcases List.mem_cons.mp hb' with rfl | hb'
              · exact ⟨key, li, v, List.mem_cons_self _ _, hu, hv, Or.inl ⟨har, hpb⟩⟩
              · rcases ihb b' hb' with ⟨k, li', v', hm, rest'⟩
                exact ⟨k, li', v', List.mem_cons_of_mem _ hm, rest'⟩
            · have hid : Block.id b = key := (processArray_some_shape hpb).1
              simpa [hid] using ihsb.cons₂ key
          · have hpb : processBlock hide key v li = .ok (some b) := by
              rw [hv] at hn
              simpa using hn
            refine ⟨?_, ?_, ihsf.cons _, ?_⟩
            · intro f hf
              rcases ihf f hf with ⟨k, li', v', hm, rest'⟩
              exact ⟨k, li', v', List.mem_cons_of_mem _ hm, rest'⟩
            · intro b' hb'
              rcases List.mem_cons.mp hb' with rfl | hb'
              · exact ⟨key, li, v, List.mem_cons_self _ _, hu, hv, Or.inr ⟨hpo, hpb⟩⟩
              · rcases ihb b' hb' with ⟨k, li', v', hm, rest'⟩
                exact ⟨k, li', v', List.mem_cons_of_mem _ hm, rest'⟩
            · have hid : Block.id b = key := (processBlock_some_shape hpb).1
              simpa [hid] using ihsb.cons₂ key
          · refine ⟨?_, ?_, ?_, ihsb.cons _⟩
            · intro f' hf'
              rcases List.mem_cons.mp hf' with rfl | hf'
              · exact ⟨key, li, v, List.mem_cons_self _ _, hu, hv, hpo, har, hpf, hk⟩
              · rcases ihf f' hf' with ⟨k, li', v', hm, rest'⟩
                exact ⟨k, li', v', List.mem_cons_of_mem _ hm, rest'⟩
            · intro b hb
              rcases ihb b hb with ⟨k, li', v', hm, rest'⟩
              exact ⟨k, li', v', List.mem_cons_of_mem _ hm, rest'⟩
            · have hid : f.id = key := (processField_some hpf).1
              simpa [hid] using ihsf.cons₂ key

theorem mem_arrEntries {i : Nat} {xs : List JValue} {k : String} {li : JValue}
    (h : (k, li) ∈ arrEntries i xs) : li ∈ xs := by
  induction xs generalizing i with
  | nil => simp [arrEntries] at h
  | cons v r ih =>
      rcases List.mem_cons.mp h with heq | hm
      · cases heq; exact List.mem_cons_self _ _
      · exact List.mem_cons_of_mem _ (ih hm)

theorem jsize_lt_of_mem_pairs {fs : List (String × JValue)} {k : String} {li : JValue}
    (h : (k, li) ∈ fs) : jsize li < jsize (jobj fs) := by
  induction fs with
  | nil => simp at h
  | cons p r ih =>
      rcases List.mem_cons.mp h with heq | hm
      · cases heq; simp [jsize, jsizePairs]; omega
      · have := ih hm
        simp [jsize, jsizePairs] at this ⊢
        omega

theorem jsize_lt_of_mem_list {xs : List JValue} {li : JValue}
    (h : li ∈ xs) : jsize li < jsize (jarr xs) := by
  induction xs with
  | nil => simp at h
  | cons v r ih =>
      rcases List.mem_cons.mp h with heq | hm
      · cases heq; simp [jsize, jsizeList]; omega
      · have := ih hm
        simp [jsize, jsizeList] at this ⊢
        omega

theorem mem_flatFieldsList {fs : List Block} {f : Field} :
    f ∈ Block.flatFieldsList fs ↔ ∃ b ∈ fs, f ∈ Block.flatFields b := by
  induction fs with
  | nil => simp [Block.flatFieldsList]
  | cons b r ih => simp [Block.flatFieldsList, ih]

theorem mem_innerIdsList {fs : List Block} {i : String} :
    i ∈ Block.innerIdsList fs ↔ ∃ b ∈ fs, i = Block.id b ∨ i ∈ Block.innerIds b := by
  induction fs with
  | nil => simp [Block.innerIdsList]
  | cons b r ih =>
      simp only [Block.innerIdsList, List.mem_append, List.mem_singleton, ih, List.mem_cons]
      aesop

theorem processSection_inv {hide : Bool} {k : String} {d l : JValue} {s : Section}
    (h : processSection hide k d l = .ok (some s)) :
    ∃ fs bs, processSectionGo hide d (if truthy l then jsEntries l else []) = .ok (fs, bs) ∧
      (bs.isEmpty = false ∨ fs.isEmpty = false) ∧
      s.id = k ∧ s.fields = fs ∧ s.blocks = bs := by
  unfold processSection at h
  simp only [bind, Except.bind] at h
  cases hgo : processSectionGo hide d (if truthy l then jsEntries l else []) with
  | error e => rw [hgo] at h; exact absurd h (by simp)
  | ok p =>
      rw [hgo] at h
      cases p with
      | mk fs bs =>
          dsimp only at h
          split at h
          · rename_i hcond
            simp only [Except.ok.injEq, Option.some.injEq] at h
            subst h
            exact ⟨fs, bs, rfl, hcond, rfl, rfl, rfl⟩
          · simp at h

theorem processItemFields_inv {hide : Bool} {item : JValue}
    {entries : List (String × JValue)} {fs : List Field}
    (h : processItemFields hide item entries = .ok fs) :
    ∀ f ∈ fs, ∃ k li v, (k, li) ∈ entries ∧ jsPropEx item k = .ok (some v) ∧
      processField k v li = some f ∧ keepField hide f = true := by
  induction entries generalizing fs with
  | nil =>
      simp only [processItemFields, Except.ok.injEq] at h
      subst h
      simp
  | cons e rest ih =>
      cases e with
      | mk key li =>
          simp only [processItemFields, bind, Except.bind] at h
          cases hpe : jsPropEx item key with
          | error e => rw [hpe] at h; exact absurd h (by simp)
          | ok o =>
              rw [hpe] at h
              cases o with
              | none =>
                  intro f hf
                  rcases ih h f hf with ⟨k, li', v, hm, rest'⟩
                  exact ⟨k, li', v, List.mem_cons_of_mem _ hm, rest'⟩
              | some value =>
                  dsimp only at h
                  cases hvl : isValidLabelM li with
                  | error e => rw [hvl] at h; exact absurd h (by simp)
                  | ok valid =>
                      rw [hvl] at h
                      cases valid with
                      | false =>
                          simp only [if_neg (by simp : ¬ (false = true))] at h
                          intro f hf
                          rcases ih h f hf with ⟨k, li', v, hm, rest'⟩
                          exact ⟨k, li', v, List.mem_cons_of_mem _ hm, rest'⟩
                      | true =>
                          simp only [eq_self_iff_true, if_true] at h
                          cases hpf : processField key value li with
                          | none =>
                              rw [hpf] at h
                              intro f hf
                              rcases ih h f hf with ⟨k, li', v, hm, rest'⟩
                              exact ⟨k, li', v, List.mem_cons_of_mem _ hm, rest'⟩
                          | some f0 =>
                              rw [hpf] at h
                              dsimp only at h
                              cases hk : keepField hide f0 with
                              | false =>
                                  rw [hk] at h
                                  simp only [Bool.false_eq_true, if_neg (by simp : ¬ (false = true))] at h
                                  intro f hf
                                  rcases ih h f hf with ⟨k, li', v, hm, rest'⟩
                                  exact ⟨k, li', v, List.mem_cons_of_mem _ hm, rest'⟩
                              | true =>
                                  rw [hk] at h
                                  simp only [eq_self_iff_true, if_true, bind, Except.bind] at h
                                  cases hrest : processItemFields hide item rest with
                                  | error e => rw [hrest] at h; exact absurd h (by simp)
                                  | ok fs' =>
                                      rw [hrest] at h
                                      simp only [Except.ok.injEq] at h
                                      subst h
                                      intro f hf
                                      rcases List.mem_cons.mp hf with rfl | hf
                                      · exact ⟨key, li, value, List.mem_cons_self _ _, hpe, hpf, hk⟩
                                      · rcases ih hrest f hf with ⟨k, li', v, hm, rest'⟩
                                        exact ⟨k, li', v, List.mem_cons_of_mem _ hm, rest'⟩

theorem processItems_inv {hide : Bool} {ak : String} {entries : List (String × JValue)}
    {i : Nat} {xs : List JValue} {its : List ArrayItem} {cols : List Column}
    (h : processItems hide ak entries i xs = .ok (its, cols)) :
    ∀ it ∈ its, it.fields ≠ [] ∧
      ∃ item ∈ xs, processItemFields hide item entries = .ok it.fields := by
  induction xs generalizing i its cols with
  | nil =>
      simp only [processItems, Except.ok.injEq, Prod.mk.injEq] at h
      rcases h with ⟨rfl, rfl⟩
      simp
  | cons item rest ih =>
      simp only [processItems, bind, Except.bind] at h
      cases hpf : processItemFields hide item entries with
      | error e => rw [hpf] at h; exact absurd h (by simp)
      | ok fs =>
          rw [hpf] at h
          cases hrest : processItems hide ak entries (i + 1) rest with
          | error e => rw [hrest] at h; exact absurd h (by simp)
          | ok p =>
              rw [hrest] at h
              cases p with
              | mk its0 cols0 =>
                  dsimp only at h
                  simp only [Except.ok.injEq, Prod.mk.injEq] at h
                  rcases h with ⟨hits, _⟩
                  intro it hit
                  by_cases hfs : fs.isEmpty
                  · rw [if_pos hfs] at hits
                    subst hits
                    rcases ih hrest it hit with ⟨hne, item', hm, hok⟩
                    exact ⟨hne, item', List.mem_cons_of_mem _ hm, hok⟩
                  · rw [if_neg hfs] at hits
                    subst hits
                    rcases List.mem_cons.mp hit with rfl | hit
                    · refine ⟨by simpa using hfs, item, List.mem_cons_self _ _, hpf⟩
                    · rcases ih hrest it hit with ⟨hne, item', hm, hok⟩
                      exact ⟨hne, item', List.mem_cons_of_mem _ hm, hok⟩

theorem processArray_BlockInv {hide : Bool} {k : String} {d l : JValue} {b : Block}
    (h : processArray hide k d l = .ok (some b)) : BlockInv hide b := by
  unfold processArray at h
  split at h
  · split at h
    · exact absurd h (by simp)
    · split at h
      · exact absurd h (by simp)
      · split at h
        · exact absurd h (by simp)
        · rcases processArrayCore_some h with ⟨its, cols, hpi, hits, rfl⟩
          have hinv := processItems_inv hpi
          have hfieldinfo : ∀ it ∈ its, ∀ f ∈ ArrayItem.fields it,
              startsWithUnderscore f.id = false ∧ (hide = true → f.displayValue ≠ "—") := by
            intro it hit f hf
            rcases hinv it hit with ⟨_, item, _, hok⟩
            rcases processItemFields_inv hok f hf with ⟨k', li', v, hm, _, hpf, hk⟩
            have hid : f.id = k' := (processField_some hpf).1
            have hku : startsWithUnderscore k' = false := by
              have := List.mem_filter.mp hm
              simpa using this.2
            refine ⟨hid ▸ hku, ?_⟩
            rintro rfl
            exact keepField_hide hk
          refine ⟨?_, ?_, ?_⟩
          · intro i hi
            have hex : ∃ it ∈ its, ∃ f ∈ ArrayItem.fields it, i = f.id := by
              simp only [Block.innerIds, Block.innerIdsList, List.map_nil, List.nil_append,
                List.append_nil, List.mem_flatten, List.mem_map, List.mem_append] at hi
              aesop
            rcases hex with ⟨it, hit, f, hf, rfl⟩
            exact (hfieldinfo it hit f hf).1
          · intro hh f hf
            have hex : ∃ it ∈ its, f ∈ ArrayItem.fields it := by
              simp only [Block.flatFields, Block.flatFieldsList, List.map_nil, List.nil_append,
                List.append_nil, List.mem_flatten, List.mem_map, List.mem_append] at hf
              aesop
            rcases hex with ⟨it, hit, hf2⟩
            exact (hfieldinfo it hit f hf2).2 hh
          · exact Or.inr (Or.inr (by simpa using hits))
  · exact absurd h (by simp)

theorem one_le_jsize (l : JValue) : 1 ≤ jsize l := by
  cases l <;> simp [jsize]

theorem goObj_inv_deep {hide : Bool} {d : JValue} {entries : List (String × JValue)}
    {fs : List Field} {bs : List Block}
    (hrec : ∀ k li v b, (k, li) ∈ entries → processBlock hide k v li = .ok (some b) →
      BlockInv hide b)
    (h : processBlockGoObj hide d entries = .ok (fs, bs)) :
    FieldInvs hide fs ∧
    (∀ b ∈ bs, startsWithUnderscore (Block.id b) = false ∧ BlockInv hide b) := by
  rcases processBlockGoObj_inv h with ⟨hf, hb, _, _⟩
  constructor
  · intro f hfm
    rcases hf f hfm with ⟨k, li, v, hm, hu, _, _, _, hpf, hk⟩
    have hid : f.id = k := (processField_some hpf).1
    refine ⟨hid ▸ hu, ?_⟩
    rintro rfl
    exact keepField_hide hk
  · intro b hbm
    rcases hb b hbm with ⟨k, li, v, hm, hu, hv, _, _, hpb⟩
    have hid : Block.id b = k := (processBlock_some_shape hpb).1
    exact ⟨hid ▸ hu, hrec k li v b hm hpb⟩

theorem BlockInv_assemble {hide : Bool} {k : String} {t : JValue}
    {fs : List Field} {bs : List Block}
    (hne : fs.isEmpty = false ∨ bs.isEmpty = false)
    (hfi : FieldInvs hide fs)
    (hbi : ∀ b ∈ bs, startsWithUnderscore (Block.id b) = false ∧ BlockInv hide b) :
    BlockInv hide (.mk k t true false fs bs [] []) := by
  refine ⟨?_, ?_, ?_⟩
  · intro i hi
    simp only [Block.innerIds, List.map_nil, List.flatten_nil, List.append_nil,
      List.mem_append, List.mem_map] at hi
    rcases hi with ⟨f, hf, rfl⟩ | hi
    · exact (hfi f hf).1
    · rcases mem_innerIdsList.mp hi with ⟨b', hb', hcase⟩
      rcases hcase with rfl | hin
      · exact (hbi b' hb').1
      · exact ((hbi b' hb').2).1 i hin
  · intro hh f hf
    simp only [Block.flatFields, List.map_nil, List.flatten_nil, List.append_nil,
      List.mem_append] at hf
    rcases hf with hf | hf
    · exact (hfi f hf).2 hh
    · rcases mem_flatFieldsList.mp hf with ⟨b', hb', hin⟩
      exact ((hbi b' hb').2).2.1 hh f hin
  · rcases hne with h1 | h1
    · exact Or.inl (by simpa using h1)
    · exact Or.inr (Or.inl (by simpa using h1))

theorem processBlock_BlockInv_aux (n : Nat) :
    ∀ {hide : Bool} {k : String} {d l : JValue} {b : Block}, jsize l ≤ n →
      processBlock hide k d l = .ok (some b) → BlockInv hide b := by
  induction n with
  | zero =>
      intro hide k d l b hle h
      have := one_le_jsize l
      omega
  | succ n ih =>
      intro hide k d l b hle h
      unfold processBlock at h
      cases l with
      | jobj fs =>
          rcases processBlockFinish_some h with ⟨fs', bs', hgo, hne, rfl⟩
          have hrec : ∀ k' li v b', (k', li) ∈ fs →
              processBlock hide k' v li = .ok (some b') → BlockInv hide b' := by
            intro k' li v b' hm hpb
            have hlt : jsize li < jsize (jobj fs) := jsize_lt_of_mem_pairs hm
            exact ih (by omega) hpb
          rcases goObj_inv_deep hrec hgo with ⟨hfi, hbi⟩
          exact BlockInv_assemble hne hfi hbi
      | jarr xs =>
          dsimp only at h
          rw [processBlockGoArr_eq] at h
          rcases processBlockFinish_some h with ⟨fs', bs', hgo, hne, rfl⟩
          have hrec : ∀ k' li v b', (k', li) ∈ arrEntries 0 xs →
              processBlock hide k' v li = .ok (some b') → BlockInv hide b' := by
            intro k' li v b' hm hpb
            have hlt : jsize li < jsize (jarr xs) := jsize_lt_of_mem_list (mem_arrEntries hm)
            exact ih (by omega) hpb
          rcases goObj_inv_deep hrec hgo with ⟨hfi, hbi⟩
          exact BlockInv_assemble hne hfi hbi
      | jnull => simp at h
      | jbool v => simp at h
      | jnum v => simp at h
      | jstr v => simp at h

theorem processBlock_BlockInv {hide : Bool} {k : String} {d l : JValue} {b : Block}
    (h : processBlock hide k d l = .ok (some b)) : BlockInv hide b :=
  processBlock_BlockInv_aux (jsize l) (le_refl _) h

theorem processTopValue_inv {hide : Bool} {key : String} {li value : JValue}
    {restR : Except String (List Section)} {out : List Section}
    (h : processTopValue hide key li value restR = .ok out) :
    ∃ rest', restR = .ok rest' ∧
      (out = rest' ∨
       ∃ s0, isPlainObj value = true ∧ processSection hide key value li = .ok (some s0) ∧
         out = { s0 with order := resolveOrder li } :: rest') := by
  unfold processTopValue at h
  split at h
  · rename_i hobj
    simp only [bind, Except.bind] at h
    cases hps : processSection hide key value li with
    | error e => rw [hps] at h; exact absurd h (by simp)
    | ok s? =>
        rw [hps] at h
        cases hr : restR with
        | error e => rw [hr] at h; cases s? <;> simp at h
        | ok rest' =>
            rw [hr] at h
            cases s? with
            | none =>
                simp only [Except.ok.injEq] at h
                exact ⟨rest', rfl, Or.inl h.symm⟩
            | some s0 =>
                simp only [Except.ok.injEq] at h
                exact ⟨rest', rfl, Or.inr ⟨s0, hobj, rfl, h.symm⟩⟩
  · exact ⟨out, h, Or.inl rfl⟩

theorem processFormDataGo_inv {hide : Bool} {skip : List String} {fd : JValue}
    {entries : List (String × JValue)} {out : List Section}
    (h : processFormDataGo hide skip fd entries = .ok out) :
    (∀ s ∈ out, ∃ k li, (k, li) ∈ entries ∧ s.id = k ∧ s.order = resolveOrder li ∧
        skip.contains k = false ∧
        (∃ v0, jsPropEx fd k = .ok (some v0) ∧ v0 ≠ jnull) ∧
        (∃ value s0, isPlainObj value = true ∧
          processSection hide k value li = .ok (some s0) ∧
          s = { s0 with order := resolveOrder li })) ∧
    List.Sublist (out.map Section.id) (entries.map Prod.fst) := by
  induction entries generalizing out with
  | nil =>
      simp only [processFormDataGo, Except.ok.injEq] at h
      subst h
      simp
  | cons e rest ih =>
      cases e with
      | mk key li =>
          simp only [processFormDataGo] at h
          split at h
          · rcases ih h with ⟨ihs, ihsub⟩
            refine ⟨?_, ihsub.cons _⟩
            intro s hs
            rcases ihs s hs with ⟨k, li', hm, rest'⟩
            exact ⟨k, li', List.mem_cons_of_mem _ hm, rest'⟩
          · rename_i hskip
            simp only [bind, Except.bind] at h
            cases hpe : jsPropEx fd key with
            | error e => rw [hpe] at h; exact absurd h (by simp)
            | ok o =>
                rw [hpe] at h
                have skipCase : processFormDataGo hide skip fd rest = .ok out →
                    (∀ s ∈ out, ∃ k li2, (k, li2) ∈ (key, li) :: rest ∧ s.id = k ∧
                        s.order = resolveOrder li2 ∧ skip.contains k = false ∧
                        (∃ v0, jsPropEx fd k = .ok (some v0) ∧ v0 ≠ jnull) ∧
                        (∃ value s0, isPlainObj value = true ∧
                          processSection hide k value li2 = .ok (some s0) ∧
                          s = { s0 with order := resolveOrder li2 })) ∧
                    List.Sublist (out.map Section.id) (((key, li) :: rest).map Prod.fst) := by
                  intro hrest
                  rcases ih hrest with ⟨ihs, ihsub⟩
                  refine ⟨?_, ihsub.cons _⟩
                  intro s hs
                  rcases ihs s hs with ⟨k, li2, hm, rest'⟩
                  exact ⟨k, li2, List.mem_cons_of_mem _ hm, rest'⟩
                cases o with
                | none => exact skipCase h
                | some v0 =>
                    dsimp only at h
                    have mainCase : v0 ≠ jnull → ∀ value,
                        processTopValue hide key li value
                          (processFormDataGo hide skip fd rest) = .ok out →
                        (∀ s ∈ out, ∃ k li2, (k, li2) ∈ (key, li) :: rest ∧ s.id = k ∧
                            s.order = resolveOrder li2 ∧ skip.contains k = false ∧
                            (∃ w, jsPropEx fd k = .ok (some w) ∧ w ≠ jnull) ∧
                            (∃ value s0, isPlainObj value = true ∧
                              processSection hide k value li2 = .ok (some s0) ∧
                              s = { s0 with order := resolveOrder li2 })) ∧
                        List.Sublist (out.map Section.id) (((key, li) :: rest).map Prod.fst) := by
                      intro hv0 value hptv
                      rcases processTopValue_inv hptv with ⟨rest', hrest, hdisj⟩
                      rcases ih hrest with ⟨ihs, ihsub⟩
                      rcases hdisj with rfl | ⟨s0, hobj, hps, rfl⟩
                      · refine ⟨?_, ihsub.cons _⟩
                        intro s hs
                        rcases ihs s hs with ⟨k, li2, hm, rest2⟩
                        exact ⟨k, li2, List.mem_cons_of_mem _ hm, rest2⟩
                      · have hid0 : s0.id = key := by
                          rcases processSection_inv hps with ⟨_, _, _, _, hid, _⟩
                          exact hid
                        refine ⟨?_, ?_⟩
                        · intro s hs
                          rcases List.mem_cons.mp hs with rfl | hs
                          · refine ⟨key, li, List.mem_cons_self _ _, ?_, rfl, ?_,
                              ⟨v0, hpe, hv0⟩, value, s0, hobj, ?_, rfl⟩
                            · simpa using hid0
                            · simpa using hskip
                            · exact hps
                          · rcases ihs s hs with ⟨k, li2, hm, rest2⟩
                            exact ⟨k, li2, List.mem_cons_of_mem _ hm, rest2⟩
                        · simp only [List.map_cons]
                          have h2 : ({ s0 with order := resolveOrder li } : Section).id = key := by
                            simpa using hid0
                          rw [h2]
                          exact ihsub.cons₂ key
                    cases v0 with
                    | jnull => exact skipCase h
                    | jbool bv =>
                        exact mainCase (by intro hc; cases hc) _ (by simpa [parseTopValue] using h)
                    | jnum nv =>
                        exact mainCase (by intro hc; cases hc) _ (by simpa [parseTopValue] using h)
                    | jarr xs =>
                        exact mainCase (by intro hc; cases hc) _ (by simpa [parseTopValue] using h)
                    | jobj fs =>
                        exact mainCase (by intro hc; cases hc) _ (by simpa [parseTopValue] using h)
                    | jstr s0 =>
                        simp only [parseTopValue] at h
                        cases hjp : jsonParse s0 with
                        | error e => rw [hjp] at h; exact skipCase h
                        | ok v =>
                            rw [hjp] at h
                            exact mainCase (by intro hc; cases hc) _ h

theorem lookup_mem {α β : Type} [BEq α] [LawfulBEq α] {fs : List (α × β)} {k : α} {v : β}
    (h : fs.lookup k = some v) : (k, v) ∈ fs := by
  induction fs with
  | nil => simp [List.lookup] at h
  | cons p r ih =>
      cases p with
      | mk k0 v0 =>
          rw [List.lookup] at h
          by_cases hk : (k == k0) = true
          · rw [hk] at h
            simp only [Option.some.injEq] at h
            subst h
            have hkk : k = k0 := by simpa using hk
            subst hkk
            exact List.mem_cons_self _ _
          · rw [Bool.eq_false_iff.mpr hk] at h
            exact List.mem_cons_of_mem _ (ih h)

theorem processFormData_inv {hide : Bool} {skip : List String} {fd ld : JValue}
    {out : List Section} (h : processFormData hide skip fd ld = .ok out) :
    ∃ pre, processFormDataPre hide skip fd ld = .ok pre ∧ out = sortByOrder pre := by
  unfold processFormData at h
  cases hp : processFormDataPre hide skip fd ld with
  | error e => rw [hp] at h; simp [Except.map] at h
  | ok pre =>
      rw [hp] at h
      simp only [Except.map, Except.ok.injEq] at h
      exact ⟨pre, rfl, h.symm⟩

theorem goObj_allArrays {hide : Bool} {pairs : List (String × JValue)}
    (hall : ∀ p ∈ pairs, ∃ xs, p.2 = jarr xs) :
    ∀ entries, processBlockGoObj hide (jobj pairs) entries = .ok ([], []) := by
  intro entries
  induction entries with
  | nil => rfl
  | cons e rest ih =>
      cases e with
      | mk key li =>
          simp only [processBlockGoObj, blockEntryStep]
          split
          · exact ih
          · cases hv : jsGetProp (jobj pairs) key with
            | none => exact ih
            | some v =>
                have hm : (key, v) ∈ pairs := lookup_mem (by simpa [jsGetProp] using hv)
                rcases hall _ hm with ⟨xs, hxs⟩
                subst hxs
                simp only [isPlainObj, isArrVal]
                exact ih

theorem processBlock_allArrays {hide : Bool} {k : String} {pairs : List (String × JValue)}
    {l : JValue} (hall : ∀ p ∈ pairs, ∃ xs, p.2 = jarr xs) :
    processBlock hide k (jobj pairs) l = .ok none := by
  cases l with
  | jobj fs =>
      simp only [processBlock, goObj_allArrays hall, processBlockFinish]
      rfl
  | jarr xs =>
      simp only [processBlock, processBlockGoArr_eq, goObj_allArrays hall, processBlockFinish]
      rfl
  | jnull => rfl
  | jbool b => rfl
  | jnum n => rfl
  | jstr s => rfl

theorem processArray_some_src {hide : Bool} {k : String} {d l : JValue} {b : Block}
    (h : processArray hide k d l = .ok (some b)) :
    (∃ xs, d = jarr xs ∧ xs.isEmpty = false) ∧ truthy l = true ∧
    (∃ il, itemLabelsOf l = some il ∧ truthy il = true) := by
  unfold processArray at h
  split at h
  · rename_i xs
    split at h
    · simp at h
    · rename_i hcond
      split at h
      · simp at h
      · rename_i il hil
        split at h
        · simp at h
        · rename_i htr
          simp only [Bool.or_eq_true, Bool.not_eq_true'] at hcond
          push_neg at hcond
          refine ⟨⟨xs, rfl, ?_⟩, ?_, il, hil, ?_⟩
          · simpa using hcond.1
          · have := hcond.2
            simpa using this
          · cases htruth : truthy il with
            | false => exact absurd htruth htr
            | true => rfl
  · simp at h

/-! ### Claims -/

/-- C5: for every field without an explicitly configured type, the
inferred type is decided by the first matching rule, with precedence
native boolean → email key → phone/tel key → amount/budget/cost/price
key → date key or `YYYY-MM-DD` string value → text; an explicit `type`
from the label object (one of the seven documented type strings) is used
as-is and inference does not run. -/
theorem C5_type_inference :
    (∀ (k : String) (b : Bool), detectFieldType k (jbool b) = "boolean") ∧
    (∀ (k : String) (v : JValue), isBoolVal v = false →
       strContains (toLowerStr k) "email" = true → detectFieldType k v = "email") ∧
    (∀ (k : String) (v : JValue), isBoolVal v = false →
       strContains (toLowerStr k) "email" = false →
       (strContains (toLowerStr k) "phone" = true ∨ strContains (toLowerStr k) "tel" = true) →
       detectFieldType k v = "phone") ∧
    (∀ (k : String) (v : JValue), isBoolVal v = false →
       strContains (toLowerStr k) "email" = false →
       strContains (toLowerStr k) "phone" = false → strContains (toLowerStr k) "tel" = false →
       (strContains (toLowerStr k) "amount" = true ∨ strContains (toLowerStr k) "budget" = true ∨
        strContains (toLowerStr k) "cost" = true ∨ strContains (toLowerStr k) "price" = true) →
       detectFieldType k v = "currency") ∧
    (∀ (k : String) (v : JValue), isBoolVal v = false →
       strContains (toLowerStr k) "email" = false →
       strContains (toLowerStr k) "phone" = false → strContains (toLowerStr k) "tel" = false →
       strContains (toLowerStr k) "amount" = false → strContains (toLowerStr k) "budget" = false →
       strContains (toLowerStr k) "cost" = false → strContains (toLowerStr k) "price" = false →
       (strContains (toLowerStr k) "date" = true ∨ (∃ s, v = jstr s ∧ isIsoDate s = true)) →
       detectFieldType k v = "date") ∧
    (∀ (k : String) (v : JValue), isBoolVal v = false →
       strContains (toLowerStr k) "email" = false →
       strContains (toLowerStr k) "phone" = false → strContains (toLowerStr k) "tel" = false →
       strContains (toLowerStr k) "amount" = false → strContains (toLowerStr k) "budget" = false →
       strContains (toLowerStr k) "cost" = false → strContains (toLowerStr k) "price" = false →
       strContains (toLowerStr k) "date" = false → (∀ s, v = jstr s → isIsoDate s = false) →
       detectFieldType k v = "text") ∧
    (∀ (k : String) (v : JValue) (lbl t : String), lbl ≠ "" →
       t ∈ ["phone", "email", "currency", "date", "boolean", "number", "text"] →
       (processField k v (jobj [("label", jstr lbl), ("type", jstr t)])).map Field.fieldType =
         some (jstr t)) := by
  refine ⟨?_, ?_, ?_, ?_, ?_, ?_, ?_⟩
  · intro k b
    simp [detectFieldType, isBoolVal]
  · intro k v hb he
    simp [detectFieldType, hb, he]
  · intro k v hb he hp
    rcases hp with hp | hp <;> simp [detectFieldType, hb, he, hp]
  · intro k v hb he hp ht hc
    rcases hc with hc | hc | hc | hc <;> simp [detectFieldType, hb, he, hp, ht, hc]
  · intro k v hb he hp ht ha hbu hco hpr hd
    rcases hd with hd | ⟨s, rfl, hs⟩
    · simp [detectFieldType, hb, he, hp, ht, ha, hbu, hco, hpr, hd]
    · simp [detectFieldType, hb, he, hp, ht, ha, hbu, hco, hpr, hs]
  · intro k v hb he hp ht ha hbu hco hpr hd hiso
    cases v with
    | jstr s => simp [detectFieldType, hb, he, hp, ht, ha, hbu, hco, hpr, hd, hiso s rfl]
    | jnull => simp [detectFieldType, hb, he, hp, ht, ha, hbu, hco, hpr, hd]
    | jbool b => exact absurd hb (by simp [isBoolVal])
    | jnum n => simp [detectFieldType, hb, he, hp, ht, ha, hbu, hco, hpr, hd]
    | jarr xs => simp [detectFieldType, hb, he, hp, ht, ha, hbu, hco, hpr, hd]
    | jobj fs => simp [detectFieldType, hb, he, hp, ht, ha, hbu, hco, hpr, hd]
  · intro k v lbl t hlbl ht
    have htne : t ≠ "" := by
      simp only [List.mem_cons, List.not_mem_nil, or_false] at ht
      rcases ht with rfl | rfl | rfl | rfl | rfl | rfl | rfl
      all_goals decide
    have h1 : (lbl != "") = true := by simpa using hlbl
    have h2 : (t != "") = true := by simpa using htne
    simp [processField, List.lookup, truthyO, truthy, h1, h2]

/-- C5 witness: the theorem instantiated at concrete inputs. -/
theorem C5_type_inference_witness :
    detectFieldType "applicantEmail" (jstr "x") = "email" ∧
    detectFieldType "budgetTotal" (jnum 5) = "currency" ∧
    (processField "f" (jnum 1)
        (jobj [("label", jstr "L"), ("type", jstr "phone")])).map Field.fieldType =
      some (jstr "phone") :=
  ⟨C5_type_inference.2.1 "applicantEmail" (jstr "x") (by decide) (by decide),
   C5_type_inference.2.2.2.1 "budgetTotal" (jnum 5) (by decide) (by decide) (by decide)
     (by decide) (Or.inr (Or.inl (by decide))),
   C5_type_inference.2.2.2.2.2.2 "f" (jnum 1) "L" "phone" (by decide) (by decide)⟩

/-- C9: a native boolean value always formats as `Yes`/`No`, whatever
the resolved or explicitly configured field type is — the native-boolean
check in `formatValue` precedes all type-specific dispatch.  In
particular a field with explicit type `currency` and value `true`
displays `Yes`, and its resolved type stays `currency`. -/
theorem C9_boolean_precedence :
    (∀ (b : Bool) (ft : JValue), formatValue (jbool b) ft = if b then "Yes" else "No") ∧
    (∀ (b : Bool) (k lbl : String), lbl ≠ "" →
       (processField k (jbool b) (jobj [("label", jstr lbl), ("type", jstr "currency")])).map
           (fun f => (f.displayValue, f.fieldType)) =
         some ((if b then "Yes" else "No"), jstr "currency")) := by
  constructor
  · intro b ft
    cases b <;> simp [formatValue, isNullOrEmptyStr, isBoolVal]
  · intro b k lbl hlbl
    have h1 : (lbl != "") = true := by simpa using hlbl
    cases b <;>
      simp [processField, List.lookup, truthyO, truthy, h1, formatValue,
        isNullOrEmptyStr, isBoolVal]

/-- C9 witness: the theorem instantiated at concrete inputs. -/
theorem C9_boolean_precedence_witness :
    formatValue (jbool true) (jstr "currency") = "Yes" ∧
    (processField "paid" (jbool true)
        (jobj [("label", jstr "Paid"), ("type", jstr "currency")])).map
        (fun f => (f.displayValue, f.fieldType)) = some ("Yes", jstr "currency") :=
  ⟨C9_boolean_precedence.1 true (jstr "currency"),
   C9_boolean_precedence.2 true "paid" "Paid" (by decide)⟩

/-- C7 counterexample: the claim says every value that is not 10, 11 or
more digits is returned as the original unformatted string, but the
falsy value `0` (one digit) yields the placeholder `—`, not `"0"`. -/
theorem C7_counterexample :
    formatValue (jnum 0) (jstr "phone") = "—" ∧ jsToString (jnum 0) = "0" ∧
      ("—" : String) ≠ "0" :=
  ⟨rfl, rfl, by decide⟩

/-- C7 (amended): for every truthy value formatted with type phone, all
non-digit characters of its string form are stripped; exactly 10 digits
yield `(XXX) XXX-XXXX`; 11 digits beginning with `1` yield
`+1 (XXX) XXX-XXXX`; more than 10 digits otherwise yield
`+<country> XXX XXX XXXX` grouped from the right; any other truthy
value is returned as the original string.  Falsy values (`0`, `false`)
yield the placeholder `—` instead of the original string.  In
particular `format(8745638765, phone) = "(874) 563-8765"`. -/
theorem C7_phone_format :
    (∀ v : JValue, truthy v = true →
       ((((jsToString v).toList.filter Char.isDigit).length = 10 →
          formatPhoneNumber v =
            "(" ++ String.mk (((jsToString v).toList.filter Char.isDigit).take 3) ++ ") " ++
            String.mk ((((jsToString v).toList.filter Char.isDigit).drop 3).take 3) ++ "-" ++
            String.mk (((jsToString v).toList.filter Char.isDigit).drop 6)) ∧
        (((jsToString v).toList.filter Char.isDigit).length = 11 →
          ((jsToString v).toList.filter Char.isDigit).take 1 = ['1'] →
          formatPhoneNumber v =
            "+1 (" ++ String.mk ((((jsToString v).toList.filter Char.isDigit).drop 1).take 3) ++
            ") " ++ String.mk ((((jsToString v).toList.filter Char.isDigit).drop 4).take 3) ++
            "-" ++ String.mk (((jsToString v).toList.filter Char.isDigit).drop 7)) ∧
        (((jsToString v).toList.filter Char.isDigit).length > 10 →
          ¬(((jsToString v).toList.filter Char.isDigit).length = 11 ∧
            ((jsToString v).toList.filter Char.isDigit).take 1 = ['1']) →
          formatPhoneNumber v =
            "+" ++ String.mk (((jsToString v).toList.filter Char.isDigit).take
                    (((jsToString v).toList.filter Char.isDigit).length - 10)) ++ " " ++
            String.mk ((((jsToString v).toList.filter Char.isDigit).drop
                    (((jsToString v).toList.filter Char.isDigit).length - 10)).take 3) ++ " " ++
            String.mk ((((jsToString v).toList.filter Char.isDigit).drop
                    (((jsToString v).toList.filter Char.isDigit).length - 7)).take 3) ++ " " ++
            String.mk (((jsToString v).toList.filter Char.isDigit).drop
                    (((jsToString v).toList.filter Char.isDigit).length - 4))) ∧
        (((jsToString v).toList.filter Char.isDigit).length < 10 →
          formatPhoneNumber v = jsToString v))) ∧
    (∀ v : JValue, truthy v = false → formatPhoneNumber v = "—") ∧
    (∀ v : JValue, isNullOrEmptyStr v = false → isBoolVal v = false →
       formatValue v (jstr "phone") = formatPhoneNumber v) ∧
    formatValue (jnum 8745638765) (jstr "phone") = "(874) 563-8765" := by
  refine ⟨?_, ?_, ?_, rfl⟩
  · intro v hv
    refine ⟨?_, ?_, ?_, ?_⟩
    · intro h10
      have h10d : (List.filter Char.isDigit (jsToString v).data).length = 10 := h10
      unfold formatPhoneNumber
      rw [if_neg (by simp [hv])]
      dsimp only
      rw [if_pos (by simp [h10d])]
    · intro h11 h1
      have h11d : (List.filter Char.isDigit (jsToString v).data).length = 11 := h11
      have h1d : List.take 1 (List.filter Char.isDigit (jsToString v).data) = ['1'] := h1
      unfold formatPhoneNumber
      rw [if_neg (by simp [hv])]
      dsimp only
      rw [if_neg (by simp [h11d]), if_pos (by simp [h11d, h1d])]
    · intro hgt hnot
      have hgtd : 10 < (List.filter Char.isDigit (jsToString v).data).length := hgt
      unfold formatPhoneNumber
      rw [if_neg (by simp [hv])]
      dsimp only
      rw [if_neg (by simp; omega)]
      rw [if_neg ?hc, if_pos (by simpa using hgtd)]
      case hc =>
        simp only [Bool.and_eq_true, decide_eq_true_eq]
        intro hc
        exact hnot ⟨hc.1, by simpa using hc.2⟩
    · intro hlt
      have hltd : (List.filter Char.isDigit (jsToString v).data).length < 10 := hlt
      unfold formatPhoneNumber
      rw [if_neg (by simp [hv])]
      dsimp only
      rw [if_neg (by simp; omega), if_neg (by simp; omega), if_neg (by simp; omega)]
  · intro v hv
    simp [formatPhoneNumber, hv]
  · intro v h1 h2
    simp [formatValue, h1, h2, strictEqStr]

/-- C7 witness: the theorem instantiated at concrete inputs. -/
theorem C7_phone_format_witness :
    formatPhoneNumber (jstr "87-456-387-65") = "(874) 563-8765" ∧
    formatPhoneNumber (jbool false) = "—" ∧
    formatValue (jstr "123") (jstr "phone") = formatPhoneNumber (jstr "123") :=
  ⟨by
     have h := (C7_phone_format.1 (jstr "87-456-387-65") (by decide)).1 (by decide)
     simpa using h,
   C7_phone_format.2.1 (jbool false) (by decide),
   C7_phone_format.2.2.1 (jstr "123") (by decide) (by decide)⟩

/-- C1 counterexample: the claim says every entry without `_order`
sorts after all entries that have one, but the default rank for a
missing `_order` is the finite `999`, so a section with explicit
`_order = 1000` sorts after a sibling without `_order`.  Here `A`
carries `_order = 1000`, `C` carries none, and the output order is
`C, A`. -/
theorem C1_counterexample :
    (processFormData false []
        (jobj [("A", jobj [("f", jnum 1)]), ("C", jobj [("f", jnum 3)])])
        (jobj [("A", jobj [("_order", jnum 1000), ("f", jstr "F")]),
               ("C", jobj [("f", jstr "F")])])).map
      (fun l => l.map (fun s => (s.id, s.order))) =
    .ok [("C", 999), ("A", 1000)] := rfl

/-- C1 (amended): top-level sections are built in label-document
iteration order, tagged with rank `resolveOrder` (the numeric `_order`
when present, `999` otherwise), and stably sorted ascending by that
rank; hence entries without `_order` sort after exactly those entries
whose `_order` is below the default `999`, preserving relative order
among equal ranks.  Sibling blocks inside a section always follow label
iteration order (`_order` is never consulted for them).  For the label
tree with `_order` values `{A: 2, B: 1, C: absent}` the output order is
`B, A, C`. -/
theorem C1_order_policy :
    (∀ (hide : Bool) (skip : List String) (fd ld : JValue) (pre : List Section),
        processFormDataPre hide skip fd ld = .ok pre →
        processFormData hide skip fd ld = .ok (sortByOrder pre) ∧
        (sortByOrder pre).Pairwise (fun a b => a.order ≤ b.order) ∧
        (∀ r : Int, (sortByOrder pre).filter (fun t => t.order == r) =
            pre.filter (fun t => t.order == r)) ∧
        (∀ s ∈ pre, ∃ k li, (k, li) ∈ (if truthy ld then jsEntries ld else []) ∧
            s.id = k ∧ s.order = resolveOrder li) ∧
        List.Sublist (pre.map Section.id)
          ((if truthy ld then jsEntries ld else []).map Prod.fst)) ∧
    (∀ (hide : Bool) (k : String) (d l : JValue) (s : Section),
        processSection hide k d l = .ok (some s) →
        List.Sublist (s.blocks.map Block.id)
          ((if truthy l then jsEntries l else []).map Prod.fst)) ∧
    (processFormData false []
        (jobj [("A", jobj [("f", jnum 1)]), ("B", jobj [("f", jnum 2)]),
               ("C", jobj [("f", jnum 3)])])
        (jobj [("A", jobj [("_order", jnum 2), ("f", jstr "F")]),
               ("B", jobj [("_order", jnum 1), ("f", jstr "F")]),
               ("C", jobj [("f", jstr "F")])])).map
      (fun l => l.map Section.id) = .ok ["B", "A", "C"] := by
  refine ⟨?_, ?_, rfl⟩
  · intro hide skip fd ld pre hpre
    refine ⟨?_, (sortByOrder_spec pre).1, (sortByOrder_spec pre).2, ?_, ?_⟩
    · unfold processFormData
      rw [hpre]
      rfl
    · intro s hs
      rcases (processFormDataGo_inv hpre).1 s hs with ⟨k, li, hm, hid, hord, _⟩
      exact ⟨k, li, hm, hid, hord⟩
    · exact (processFormDataGo_inv hpre).2
  · intro hide k d l s hps
    rcases processSection_inv hps with ⟨fs, bs, hgo, _, _, _, hbs⟩
    rw [hbs]
    exact (processSectionGo_inv hgo).2.2.2

/-- C1 witness: the amended theorem instantiated at concrete inputs. -/
theorem C1_order_policy_witness :
    processFormData true [] wData wLabels = .ok (sortByOrder [{ wSection with order := 999 }]) ∧
    (sortByOrder [{ wSection with order := 999 }]).Pairwise (fun a b => a.order ≤ b.order) ∧
    List.Sublist (wSection.blocks.map Block.id)
      ((if truthy (jobj [("f", jstr "F")]) then jsEntries (jobj [("f", jstr "F")]) else
        []).map Prod.fst) :=
  ⟨(C1_order_policy.1 true [] wData wLabels [{ wSection with order := 999 }] (by rfl)).1,
   (C1_order_policy.1 true [] wData wLabels [{ wSection with order := 999 }] (by rfl)).2.1,
   C1_order_policy.2.1 true "S" (jobj [("f", jnum 1)]) (jobj [("f", jstr "F")]) wSection (by rfl)⟩

/-- C10: top-level sections with equal resolved rank — in particular
all sections without a numeric `_order`, which all receive the default
rank `999` — keep their relative order from the label document's key
iteration order: the sort is stable (the rank-by-rank filtrations of
the sorted output coincide with those of the pre-sort list, which is
built in label iteration order). -/
theorem C10_stable_section_sort :
    (∀ (hide : Bool) (skip : List String) (fd ld : JValue) (pre : List Section),
        processFormDataPre hide skip fd ld = .ok pre →
        processFormData hide skip fd ld = .ok (sortByOrder pre) ∧
        (∀ r : Int, (sortByOrder pre).filter (fun t => t.order == r) =
            pre.filter (fun t => t.order == r)) ∧
        List.Sublist (pre.map Section.id)
          ((if truthy ld then jsEntries ld else []).map Prod.fst) ∧
        (∀ s ∈ pre, ∃ k li, (k, li) ∈ (if truthy ld then jsEntries ld else []) ∧
            s.id = k ∧ s.order = resolveOrder li)) ∧
    (∀ li : JValue, (∀ n : Int, jsGetProp li "_order" ≠ some (jnum n)) →
        resolveOrder li = 999) ∧
    (processFormData false []
        (jobj [("X", jobj [("f", jnum 1)]), ("Y", jobj [("f", jnum 2)])])
        (jobj [("X", jobj [("f", jstr "F")]), ("Y", jobj [("f", jstr "F")])])).map
      (fun l => l.map (fun s => (s.id, s.order))) = .ok [("X", 999), ("Y", 999)] := by
  refine ⟨?_, ?_, rfl⟩
  · intro hide skip fd ld pre hpre
    refine ⟨?_, (sortByOrder_spec pre).2, (processFormDataGo_inv hpre).2, ?_⟩
    · unfold processFormData
      rw [hpre]
      rfl
    · intro s hs
      rcases (processFormDataGo_inv hpre).1 s hs with ⟨k, li, hm, hid, hord, _⟩
      exact ⟨k, li, hm, hid, hord⟩
  · intro li hno
    unfold resolveOrder
    split
    · cases hlo : jsGetProp li "_order" with
      | none => rfl
      | some w =>
          cases w with
          | jnum n => exact absurd hlo (hno n)
          | jnull => rfl
          | jbool b => rfl
          | jstr s => rfl
          | jarr xs => rfl
          | jobj fs => rfl
    · rfl

/-- C10 witness: the theorem instantiated at concrete inputs. -/
theorem C10_stable_section_sort_witness :
    (∀ r : Int, (sortByOrder [{ wSection with order := 999 }]).filter (fun t => t.order == r) =
        ([{ wSection with order := 999 }] : List Section).filter (fun t => t.order == r)) ∧
    resolveOrder (jobj [("f", jstr "F")]) = 999 :=
  ⟨(C10_stable_section_sort.1 true [] wData wLabels [{ wSection with order := 999 }]
      (by rfl)).2.1,
   C10_stable_section_sort.2.1 (jobj [("f", jstr "F")]) (fun n h => Option.noConfusion h)⟩

theorem jsPropEx_ok_some {fd : JValue} {k : String} {v : JValue}
    (h : jsPropEx fd k = .ok (some v)) : jsGetProp fd k = some v := by
  cases fd with
  | jnull => simp [jsPropEx] at h
  | jbool b => simpa [jsPropEx] using h
  | jnum n => simpa [jsPropEx] using h
  | jstr s => simpa [jsPropEx] using h
  | jarr xs => simpa [jsPropEx] using h
  | jobj fs => simpa [jsPropEx] using h

/-- C3 counterexample: the claim says an underscore-prefixed label key
is never matched against the data document and never emitted, at every
level including the top level; but `processFormData` applies no
underscore filter to top-level keys, so the label key `_meta` is
matched and emitted as a section. -/
theorem C3_counterexample :
    (processFormData false [] (jobj [("_meta", jobj [("f", jnum 1)])])
        (jobj [("_meta", jobj [("f", jstr "F")])])).map (fun l => l.map Section.id) =
      .ok ["_meta"] := rfl

/-- C3 (amended): below the top level — inside sections, blocks, nested
blocks and array-item schemas — label keys beginning with an underscore
are reserved metadata and are never emitted as a field or block id; at
the top level of the label document, keys receive no underscore
filtering (an underscore-keyed object entry is matched against the data
document and can be emitted as a section). -/
theorem C3_underscore_reserved_below_top :
    ∀ (hide : Bool) (skip : List String) (fd ld : JValue) (out : List Section),
      processFormData hide skip fd ld = .ok out →
      ∀ s ∈ out, (∀ f ∈ s.fields, startsWithUnderscore f.id = false) ∧
        (∀ b ∈ s.blocks, startsWithUnderscore (Block.id b) = false ∧
           ∀ i ∈ Block.innerIds b, startsWithUnderscore i = false) := by
  intro hide skip fd ld out h s hs
  rcases processFormData_inv h with ⟨pre, hpre, rfl⟩
  have hs' : s ∈ pre := mem_sortByOrder.mp hs
  rcases (processFormDataGo_inv hpre).1 s hs' with
    ⟨k, li, _, _, _, _, _, value, s0, _, hps, rfl⟩
  rcases processSection_inv hps with ⟨fs, bs, hgo, _, _, hfs, hbs⟩
  rcases processSectionGo_inv hgo with ⟨hf, hb, _, _⟩
  constructor
  · intro f hfm
    have hfm' : f ∈ fs := by
      have : ({ s0 with order := resolveOrder li } : Section).fields = s0.fields := rfl
      rw [this, hfs] at hfm
      exact hfm
    rcases hf f hfm' with ⟨k', li', v', _, hu, _, _, _, hpf, _⟩
    have hid : f.id = k' := (processField_some hpf).1
    rw [hid]
    exact hu
  · intro b hbm
    have hbm' : b ∈ bs := by
      have : ({ s0 with order := resolveOrder li } : Section).blocks = s0.blocks := rfl
      rw [this, hbs] at hbm
      exact hbm
    rcases hb b hbm' with ⟨k', li', v', _, hu, _, hcase⟩
    rcases hcase with ⟨_, hpa⟩ | ⟨_, hpb⟩
    · have hid : Block.id b = k' := (processArray_some_shape hpa).1
      exact ⟨hid ▸ hu, (processArray_BlockInv hpa).1⟩
    · have hid : Block.id b = k' := (processBlock_some_shape hpb).1
      exact ⟨hid ▸ hu, (processBlock_BlockInv hpb).1⟩

/-- C3 witness: the amended theorem instantiated at a concrete input. -/
theorem C3_underscore_reserved_below_top_witness :
    (∀ f ∈ ({ wSection with order := 999 } : Section).fields,
       startsWithUnderscore f.id = false) ∧
    (∀ b ∈ ({ wSection with order := 999 } : Section).blocks,
       startsWithUnderscore (Block.id b) = false ∧
       ∀ i ∈ Block.innerIds b, startsWithUnderscore i = false) :=
  C3_underscore_reserved_below_top true [] wData wLabels [{ wSection with order := 999 }]
    (by rfl) { wSection with order := 999 } (by simp)

/-- C4: projection is label-gated in both directions: a key present
only in the data document (no label entry) or only in the label
document (no defined data value) contributes no output node — at the
top level (sections) and inside sections and blocks (fields, blocks and
nested blocks all carry a label key whose data value is defined). -/
theorem C4_label_gated_projection :
    (∀ (hide : Bool) (skip : List String) (fd ld : JValue) (out : List Section) (k : String),
        processFormData hide skip fd ld = .ok out →
        (k ∉ ((if truthy ld then jsEntries ld else []).map Prod.fst) ∨ jsGetProp fd k = none) →
        ∀ s ∈ out, s.id ≠ k) ∧
    (∀ (hide : Bool) (k : String) (d l : JValue) (s : Section),
        processSection hide k d l = .ok (some s) →
        (∀ f ∈ s.fields, f.id ∈ ((if truthy l then jsEntries l else []).map Prod.fst) ∧
           jsGetProp d f.id ≠ none) ∧
        (∀ b ∈ s.blocks, Block.id b ∈ ((if truthy l then jsEntries l else []).map Prod.fst) ∧
           jsGetProp d (Block.id b) ≠ none)) ∧
    (∀ (hide : Bool) (k : String) (d l : JValue) (b : Block),
        processBlock hide k d l = .ok (some b) →
        (∀ f ∈ Block.fields b, f.id ∈ ((jsEntries l).map Prod.fst) ∧
           jsGetProp d f.id ≠ none) ∧
        (∀ nb ∈ Block.nestedBlocks b, Block.id nb ∈ ((jsEntries l).map Prod.fst) ∧
           jsGetProp d (Block.id nb) ≠ none)) := by
  refine ⟨?_, ?_, ?_⟩
  · intro hide skip fd ld out k h hnone s hs hid
    rcases processFormData_inv h with ⟨pre, hpre, rfl⟩
    have hs' : s ∈ pre := mem_sortByOrder.mp hs
    rcases (processFormDataGo_inv hpre).1 s hs' with
      ⟨k', li, hm, hid', _, _, ⟨v0, hpe, _⟩, _⟩
    rw [hid] at hid'
    subst hid'
    rcases hnone with hno | hno
    · exact hno (List.mem_map_of_mem Prod.fst hm)
    · rw [jsPropEx_ok_some hpe] at hno
      exact Option.noConfusion hno
  · intro hide k d l s hps
    rcases processSection_inv hps with ⟨fs, bs, hgo, _, _, hfs, hbs⟩
    rcases processSectionGo_inv hgo with ⟨hf, hb, _, _⟩
    constructor
    · intro f hfm
      rw [hfs] at hfm
      rcases hf f hfm with ⟨k', li', v', hm, _, hv, _, _, hpf, _⟩
      have hid : f.id = k' := (processField_some hpf).1
      rw [hid]
      exact ⟨List.mem_map_of_mem Prod.fst hm, by rw [hv]; exact fun hc => Option.noConfusion hc⟩
    · intro b hbm
      rw [hbs] at hbm
      rcases hb b hbm with ⟨k', li', v', hm, _, hv, hcase⟩
      have hid : Block.id b = k' := by
        rcases hcase with ⟨_, hpa⟩ | ⟨_, hpb⟩
        · exact (processArray_some_shape hpa).1
        · exact (processBlock_some_shape hpb).1
      rw [hid]
      exact ⟨List.mem_map_of_mem Prod.fst hm, by rw [hv]; exact fun hc => Option.noConfusion hc⟩
  · intro hide k d l b hpb
    cases l with
    | jobj lfs =>
        rcases processBlockFinish_some (by simpa [processBlock] using hpb) with
          ⟨fs, bs, hgo, _, rfl⟩
        rcases processBlockGoObj_inv hgo with ⟨hf, hb, _, _⟩
        constructor
        · intro f hfm
          rcases hf f (by simpa [Block.fields] using hfm) with
            ⟨k', li', v', hm, _, hv, _, _, hpf, _⟩
          have hid : f.id = k' := (processField_some hpf).1
          rw [hid]
          exact ⟨List.mem_map_of_mem Prod.fst hm, by rw [hv]; exact fun hc => Option.noConfusion hc⟩
        · intro nb hbm
          rcases hb nb (by simpa [Block.nestedBlocks] using hbm) with
            ⟨k', li', v', hm, _, hv, _, _, hpb'⟩
          have hid : Block.id nb = k' := (processBlock_some_shape hpb').1
          rw [hid]
          exact ⟨List.mem_map_of_mem Prod.fst hm, by rw [hv]; exact fun hc => Option.noConfusion hc⟩
    | jarr xs =>
        have hpb' : processBlockFinish k (jarr xs)
            (processBlockGoObj hide d (arrEntries 0 xs)) = .ok (some b) := by
          rw [← processBlockGoArr_eq]
          simpa [processBlock] using hpb
        rcases processBlockFinish_some hpb' with ⟨fs, bs, hgo, _, rfl⟩
        rcases processBlockGoObj_inv hgo with ⟨hf, hb, _, _⟩
        constructor
        · intro f hfm
          rcases hf f (by simpa [Block.fields] using hfm) with
            ⟨k', li', v', hm, _, hv, _, _, hpf, _⟩
          have hid : f.id = k' := (processField_some hpf).1
          rw [hid]
          exact ⟨List.mem_map_of_mem Prod.fst hm, by rw [hv]; exact fun hc => Option.noConfusion hc⟩
        · intro nb hbm
          rcases hb nb (by simpa [Block.nestedBlocks] using hbm) with
            ⟨k', li', v', hm, _, hv, _, _, hpb2⟩
          have hid : Block.id nb = k' := (processBlock_some_shape hpb2).1
          rw [hid]
          exact ⟨List.mem_map_of_mem Prod.fst hm, by rw [hv]; exact fun hc => Option.noConfusion hc⟩
    | jnull => simp [processBlock] at hpb
    | jbool bb => simp [processBlock] at hpb
    | jnum n => simp [processBlock] at hpb
    | jstr str => simp [processBlock] at hpb

/-- C4 witness: the theorem instantiated at concrete inputs. -/
theorem C4_label_gated_projection_witness :
    (∀ s ∈ ([{ wSection with order := 999 }] : List Section), s.id ≠ "ghost") ∧
    (∀ f ∈ wSection.fields,
       f.id ∈ ((if truthy (jobj [("f", jstr "F")]) then jsEntries (jobj [("f", jstr "F")])
                else []).map Prod.fst) ∧
       jsGetProp (jobj [("f", jnum 1)]) f.id ≠ none) :=
  ⟨C4_label_gated_projection.1 true [] wData wLabels [{ wSection with order := 999 }] "ghost"
     (by rfl) (Or.inl (by decide)),
   (C4_label_gated_projection.2.1 true "S" (jobj [("f", jnum 1)]) (jobj [("f", jstr "F")])
     wSection (by rfl)).1⟩

/-- C6: with `hideEmptyFields = true`, no field anywhere in an emitted
section displays the placeholder `—`; a section only survives with at
least one field or block, so a section whose every candidate field
formats to the placeholder (and which has no surviving blocks) is
dropped.  The two concrete conjuncts show a placeholder field being
excluded without pruning its surviving sibling, and an all-placeholder
section being dropped entirely. -/
theorem C6_hide_empty_fields :
    (∀ (k : String) (d l : JValue) (s : Section),
        processSection true k d l = .ok (some s) →
        (∀ f ∈ s.fields, f.displayValue ≠ "—") ∧
        (∀ b ∈ s.blocks, ∀ f ∈ Block.flatFields b, f.displayValue ≠ "—") ∧
        (s.fields ≠ [] ∨ s.blocks ≠ [])) ∧
    (processFormData true [] (jobj [("S", jobj [("a", jstr ""), ("b", jnum 5)])])
        (jobj [("S", jobj [("a", jstr "A"), ("b", jstr "B")])])).map
      (fun l => l.map (fun s => (s.id, s.fields.map Field.id))) = .ok [("S", ["b"])] ∧
    processFormData true [] (jobj [("S", jobj [("a", jstr ""), ("b", jnull)])])
        (jobj [("S", jobj [("a", jstr "A"), ("b", jstr "B")])]) = .ok [] := by
  refine ⟨?_, rfl, rfl⟩
  intro k d l s hps
  rcases processSection_inv hps with ⟨fs, bs, hgo, hne, _, hfs, hbs⟩
  rcases processSectionGo_inv hgo with ⟨hf, hb, _, _⟩
  refine ⟨?_, ?_, ?_⟩
  · intro f hfm
    rw [hfs] at hfm
    rcases hf f hfm with ⟨_, _, _, _, _, _, _, _, _, hkeep⟩
    exact keepField_hide hkeep
  · intro b hbm f hfm
    rw [hbs] at hbm
    rcases hb b hbm with ⟨_, _, _, _, _, _, hcase⟩
    rcases hcase with ⟨_, hpa⟩ | ⟨_, hpb⟩
    · exact (processArray_BlockInv hpa).2.1 rfl f hfm
    · exact (processBlock_BlockInv hpb).2.1 rfl f hfm
  · rw [hfs, hbs]
    rcases hne with h1 | h1
    · exact Or.inr (by simpa using h1)
    · exact Or.inl (by simpa using h1)

/-- C6 witness: the theorem instantiated at a concrete input. -/
theorem C6_hide_empty_fields_witness :
    (∀ f ∈ wSection.fields, f.displayValue ≠ "—") ∧
    (wSection.fields ≠ [] ∨ wSection.blocks ≠ []) :=
  ⟨(C6_hide_empty_fields.1 "S" (jobj [("f", jnum 1)]) (jobj [("f", jstr "F")]) wSection
      (by rfl)).1,
   (C6_hide_empty_fields.1 "S" (jobj [("f", jnum 1)]) (jobj [("f", jstr "F")]) wSection
      (by rfl)).2.2⟩

/-- C2 counterexample: the claim says an array data value whose label
entry is a mapping emits an array block at every nesting level,
including inside a nested block; but `processBlock` skips array values
entirely, so the array `arr` (non-empty, with a matching mapping label)
inside block `B` produces nothing — `B` emits only the scalar field `f`
and contains no array block and no nested block. -/
theorem C2_counterexample :
    (processFormData false []
        (jobj [("S", jobj [("B", jobj [("arr", jarr [jobj [("x", jnum 1)]]),
                                       ("f", jnum 2)])])])
        (jobj [("S", jobj [("_sectionTitle", jstr "S"),
                           ("B", jobj [("_blockTitle", jstr "B"),
                                       ("arr", jobj [("x", jstr "X")]),
                                       ("f", jstr "F")])])])).map
      (fun l => l.map (fun s => s.blocks.map (fun b =>
        (Block.id b, Block.isArray b, (Block.items b).length,
         (Block.nestedBlocks b).length, (Block.fields b).map Field.id)))) =
      .ok [[("B", false, 0, 0, ["f"])]] := rfl

/-- C2 (amended): an array data value is handled by array-block
processing only directly under a section; inside a (nested) block,
array values are always skipped.  Under a section, a scalar label entry
or an empty-array label entry skips the array; a non-empty array label
entry with a falsy first element also skips it; an emitted array block
always has `isArray = true`, at least one surviving row, a non-empty
data array, and a truthy resolved item schema (the label entry itself
when it is a mapping, else its first element).  The concrete conjunct
shows an array directly under a section emitting an array-table
block. -/
theorem C2_array_handling :
    (∀ (hide : Bool) (k : String) (xs : List JValue) (l : JValue),
        (l = jnull ∨ (∃ b, l = jbool b) ∨ (∃ n, l = jnum n) ∨ (∃ s, l = jstr s) ∨
          l = jarr []) →
        processArray hide k (jarr xs) l = .ok none) ∧
    (∀ (hide : Bool) (k : String) (xs : List JValue) (h0 : JValue) (t : List JValue),
        truthy h0 = false → processArray hide k (jarr xs) (jarr (h0 :: t)) = .ok none) ∧
    (∀ (hide : Bool) (k : String) (d l : JValue) (b : Block),
        processArray hide k d l = .ok (some b) →
        Block.isArray b = true ∧ Block.items b ≠ [] ∧
        (∃ xs, d = jarr xs ∧ xs.isEmpty = false) ∧
        (∃ il, itemLabelsOf l = some il ∧ truthy il = true)) ∧
    (∀ (hide : Bool) (k : String) (pairs : List (String × JValue)) (l : JValue),
        (∀ p ∈ pairs, ∃ xs, p.2 = jarr xs) → processBlock hide k (jobj pairs) l = .ok none) ∧
    (processFormData false []
        (jobj [("S", jobj [("Items", jarr [jobj [("n", jnum 1)], jobj [("n", jnum 2)]])])])
        (jobj [("S", jobj [("Items", jobj [("n", jstr "Number")])])])).map
      (fun l => l.map (fun s => s.blocks.map (fun b =>
        (Block.id b, Block.isArray b, (Block.items b).length, (Block.columns b).length)))) =
      .ok [[("Items", true, 2, 1)]] := by
  refine ⟨?_, ?_, ?_, ?_, rfl⟩
  · intro hide k xs l hl
    rcases hl with rfl | ⟨b, rfl⟩ | ⟨n, rfl⟩ | ⟨str, rfl⟩ | rfl
    all_goals
      unfold processArray
      dsimp only
      split
      · rfl
      · rfl
  · intro hide k xs h0 t hf
    unfold processArray
    dsimp only
    split
    · rfl
    · dsimp only [itemLabelsOf]
      rw [if_pos hf]
  · intro hide k d l b h
    rcases processArray_some_shape h with ⟨_, hisarr, _, _, hits⟩
    rcases processArray_some_src h with ⟨hxs, _, hil⟩
    exact ⟨hisarr, hits, hxs, hil⟩
  · intro hide k pairs l hall
    exact processBlock_allArrays hall

/-- C2 witness: the amended theorem instantiated at concrete inputs. -/
theorem C2_array_handling_witness :
    processArray false "A" (jarr [jnull]) (jstr "x") = .ok none ∧
    processArray false "A" (jarr [jnull]) (jarr [jnull]) = .ok none ∧
    processBlock false "B" (jobj [("arr", jarr [jobj [("x", jnum 1)]])])
      (jobj [("arr", jobj [("x", jstr "X")])]) = .ok none :=
  ⟨C2_array_handling.1 false "A" [jnull] (jstr "x")
     (Or.inr (Or.inr (Or.inr (Or.inl ⟨"x", rfl⟩)))),
   C2_array_handling.2.1 false "A" [jnull] jnull [] (by decide),
   C2_array_handling.2.2.2.1 false "B" [("arr", jarr [jobj [("x", jnum 1)]])]
     (jobj [("arr", jobj [("x", jstr "X")])])
     (fun p hp => by
        rcases List.mem_singleton.mp hp with rfl
        exact ⟨[jobj [("x", jnum 1)]], rfl⟩)⟩

/-- C8 counterexample: the claim says a data document that resolves to
empty/absent after normalization produces the "no data" error state;
but an empty-object data document (`{}` as `omniJsonData`, which
resolves to itself) is truthy, so initialization succeeds with an empty
section tree and no error state at all. -/
theorem C8_counterexample :
    initData ⟨some (jobj []), none, none⟩ false [] =
      { hasError := false, errorMessage := "", isLoading := false,
        processedSections := [] } := rfl

/-- C8 (amended): initialization never propagates a fault: every input
yields either a section tree with no error flag or a typed,
non-empty-message error state, with loading always cleared.  When the
resolved data document is falsy/absent after normalization the result
is exactly the "no data" error state; an empty-object data document
instead yields an empty tree without an error. -/
theorem C8_init_never_faults :
    (∀ (inp : HostInputs) (hide : Bool) (skip : List String),
        (initData inp hide skip).isLoading = false ∧
        ((initData inp hide skip).hasError = false ∨
         (initData inp hide skip).errorMessage ≠ "")) ∧
    (∀ (inp : HostInputs) (hide : Bool) (skip : List String) (fd ld : JValue),
        resolveData inp = .ok (fd, ld) → truthy fd = false →
        initData inp hide skip =
          { hasError := true, errorMessage := "No form data provided.", isLoading := false,
            processedSections := [] }) ∧
    (∀ (inp : HostInputs) (hide : Bool) (skip : List String) (fd ld : JValue)
        (sections : List Section),
        resolveData inp = .ok (fd, ld) → truthy fd = true →
        processFormData hide skip fd ld = .ok sections →
        initData inp hide skip =
          { hasError := false, errorMessage := "", isLoading := false,
            processedSections := sections }) ∧
    initData ⟨none, none, none⟩ false [] =
      { hasError := true, errorMessage := "No form data provided.", isLoading := false,
        processedSections := [] } := by
  have herrmsg : ∀ msg : String, ("Error processing form data: " ++ msg) ≠ "" := by
    intro msg hc
    have hlen := congrArg String.length hc
    rw [String.length_append] at hlen
    have h0 : 0 < ("Error processing form data: " : String).length := by decide
    have h1 : ("" : String).length = 0 := by decide
    omega
  refine ⟨?_, ?_, ?_, rfl⟩
  · intro inp hide skip
    unfold initData
    cases hres : resolveData inp with
    | error msg => exact ⟨rfl, Or.inr (herrmsg msg)⟩
    | ok p =>
        cases p with
        | mk fd ld =>
            dsimp only
            cases htr : truthy fd with
            | false =>
                rw [if_neg (by simp)]
                exact ⟨rfl, Or.inr (by decide)⟩
            | true =>
                simp only [if_pos rfl]
                cases hpf : processFormData hide skip fd ld with
                | error msg => exact ⟨rfl, Or.inr (herrmsg msg)⟩
                | ok sections => exact ⟨rfl, Or.inl rfl⟩
  · intro inp hide skip fd ld hres htr
    unfold initData
    rw [hres]
    dsimp only
    rw [htr]
    rfl
  · intro inp hide skip fd ld sections hres htr hpf
    unfold initData
    rw [hres]
    dsimp only
    rw [htr]
    simp [hpf]

/-- C8 witness: the amended theorem instantiated at concrete inputs:
an API `formData` string `"null"` parses to `null` (falsy after
normalization) and yields the "no data" state; a real document yields
the section tree without error. -/
theorem C8_init_never_faults_witness :
    initData ⟨none, some (jstr "null"), none⟩ false [] =
      { hasError := true, errorMessage := "No form data provided.", isLoading := false,
        processedSections := [] } ∧
    initData ⟨none, some wData, some wLabels⟩ true [] =
      { hasError := false, errorMessage := "", isLoading := false,
        processedSections := [{ wSection with order := 999 }] } :=
  ⟨C8_init_never_faults.2.1 ⟨none, some (jstr "null"), none⟩ false [] jnull jnull
     (by rfl) (by rfl),
   C8_init_never_faults.2.2.1 ⟨none, some wData, some wLabels⟩ true [] wData wLabels
     [{ wSection with order := 999 }] (by rfl) (by rfl) (by rfl)⟩

end ReviewSummary
